import Mathlib

/-!
Verification of the logdb storage engine (a log-structured key-value store).

The development shallowly embeds the Rust sources:
  - record.rs    : the binary record codec (Record, MemValue, Value),
  - sparse_index.rs : the sparse index and its bracketing lookup bounds,
  - memtable.rs / lib.rs : the engine (memtable, flush, get, set, delete, build),
  - compact.rs   : the k-way merge compactor.

Rust byte buffers and UTF-8 strings are modelled as lists of naturals
(each byte below 256); machine integers are naturals or integers with
explicit reduction modulo 2 ^ 64 where the source truncates; fallible
code returns Except; files are modelled by the byte lists they contain.
-/

namespace LogDb

/-- Byte strings: contents of Rust byte buffers and of UTF-8 String values. -/
abbrev Key := List Nat

/-- Lexicographic byte order: the derived Ord of Rust byte slices and String. -/
def keyLt : Key → Key → Bool
  | [], [] => false
  | [], _ :: _ => true
  | _ :: _, [] => false
  | a :: as, b :: bs => a < b || (a == b && keyLt as bs)

/-- u16 / u64 big-endian serialization (to_be_bytes): w bytes, most significant first.
Implicitly truncates the value modulo 256 ^ w exactly as a Rust as-cast does. -/
def beBytes : Nat → Nat → List Nat
  | 0, _ => []
  | w + 1, n => beBytes w (n / 256) ++ [n % 256]

/-- Big-endian deserialization (from_be_bytes). -/
def beDecode (bs : List Nat) : Nat := bs.foldl (fun acc b => acc * 256 + b) 0

/-- read_exact of n bytes from the head of a stream; none models UnexpectedEof. -/
def takeE (n : Nat) (bs : List Nat) : Option (List Nat × List Nat) :=
  if n ≤ bs.length then some (bs.take n, bs.drop n) else none

/-- Is b a UTF-8 continuation byte (0x80 to 0xBF)? -/
def isCont (b : Nat) : Bool := 128 ≤ b && b ≤ 191

/-- Models the validity check performed by String::from_utf8: RFC 3629
well-formed UTF-8 byte sequences (shortest forms only, no surrogates,
at most U+10FFFF). -/
def validUtf8 : List Nat → Bool
  | [] => true
  | b :: rest =>
    if b ≤ 127 then validUtf8 rest
    else if 194 ≤ b && b ≤ 223 then
      match rest with
      | c1 :: rest1 => isCont c1 && validUtf8 rest1
      | [] => false
    else if b == 224 then
      match rest with
      | c1 :: c2 :: rest2 => (160 ≤ c1 && c1 ≤ 191) && isCont c2 && validUtf8 rest2
      | _ => false
    else if 225 ≤ b && b ≤ 236 then
      match rest with
      | c1 :: c2 :: rest2 => isCont c1 && isCont c2 && validUtf8 rest2
      | _ => false
    else if b == 237 then
      match rest with
      | c1 :: c2 :: rest2 => (128 ≤ c1 && c1 ≤ 159) && isCont c2 && validUtf8 rest2
      | _ => false
    else if 238 ≤ b && b ≤ 239 then
      match rest with
      | c1 :: c2 :: rest2 => isCont c1 && isCont c2 && validUtf8 rest2
      | _ => false
    else if b == 240 then
      match rest with
      | c1 :: c2 :: c3 :: rest3 =>
          (144 ≤ c1 && c1 ≤ 191) && isCont c2 && isCont c3 && validUtf8 rest3
      | _ => false
    else if 241 ≤ b && b ≤ 243 then
      match rest with
      | c1 :: c2 :: c3 :: rest3 => isCont c1 && isCont c2 && isCont c3 && validUtf8 rest3
      | _ => false
    else if b == 244 then
      match rest with
      | c1 :: c2 :: c3 :: rest3 =>
          (128 ≤ c1 && c1 ≤ 143) && isCont c2 && isCont c3 && validUtf8 rest3
      | _ => false
    else false

/-- The error kinds reachable in the modelled code paths (§7 of the spec).
panicked models a Rust panic; ioErr models an injected filesystem failure. -/
inductive Err where
  | eofErr
  | invalidData
  | notFound
  | panicked
  | ioErr
deriving DecidableEq

/-- The three value variants of record.rs Value. Float64 is represented by its
IEEE-754 bit pattern: the source only moves the bits (to_be_bytes and
from_be_bytes), never performs float arithmetic, so this model is exact,
including negative zero and every finite value. -/
inductive Value where
  | Str (s : List Nat)
  | Int64 (i : Int)
  | Float64 (bits : Nat)
deriving DecidableEq

/-- record.rs MemValue: a real value or a tombstone. -/
inductive MemValue where
  | Value (v : Value)
  | Tombstone
deriving DecidableEq

/-- record.rs Record. -/
structure Record where
  key : Key
  value : MemValue
deriving DecidableEq

/-- MemValue::type_tag from record.rs. -/
def MemValue.typeTag : MemValue → Nat
  | .Value (.Str _) => 0
  | .Value (.Int64 _) => 1
  | .Value (.Float64 _) => 2
  | .Tombstone => 255

/-- i64::to_be_bytes seen as a natural: the two's-complement bit pattern below 2 ^ 64. -/
def int64Bits (i : Int) : Nat := (i % ((2 : Int) ^ 64)).toNat

/-- i64::from_be_bytes of a 64-bit pattern. -/
def int64OfBits (n : Nat) : Int :=
  if n < 2 ^ 63 then (n : Int) else (n : Int) - (2 : Int) ^ 64

/-- MemValue::serialize from record.rs. -/
def MemValue.serialize : MemValue → List Nat
  | .Value (.Str s) => s
  | .Value (.Int64 i) => beBytes 8 (int64Bits i)
  | .Value (.Float64 bits) => beBytes 8 bits
  | .Tombstone => []

/-- MemValue::deserialize from record.rs. The match arms mirror the source:
tag 0 is Str (with UTF-8 validation), tags 1 and 2 require an 8-byte payload,
tag 255 is Tombstone with no length check, anything else is invalid data. -/
def MemValue.deserialize (tag : Nat) (bytes : List Nat) : Except Err MemValue :=
  if tag == 0 then
    if validUtf8 bytes then .ok (.Value (.Str bytes)) else .error .invalidData
  else if tag == 1 && bytes.length == 8 then
    .ok (.Value (.Int64 (int64OfBits (beDecode bytes))))
  else if tag == 2 && bytes.length == 8 then
    .ok (.Value (.Float64 (beDecode bytes)))
  else if tag == 255 then
    .ok .Tombstone
  else
    .error .invalidData

/-- Record::write_to from record.rs: u16 key_len, u16 val_len, the tag byte,
the key bytes, the value payload, all big-endian. The number of bytes the
source reports written is the length of this list. -/
def Record.writeBytes (r : Record) : List Nat :=
  let valBytes := r.value.serialize
  beBytes 2 r.key.length ++ beBytes 2 valBytes.length ++ [r.value.typeTag]
    ++ r.key ++ valBytes

/-- Record::read_from from record.rs, on a byte stream; returns the parsed
record and the remaining stream. -/
def Record.readFrom (bs : List Nat) : Except Err (Record × List Nat) :=
  match takeE 2 bs with
  | none => .error .eofErr
  | some (klenB, bs1) =>
    match takeE 2 bs1 with
    | none => .error .eofErr
    | some (vlenB, bs2) =>
      match takeE 1 bs2 with
      | none => .error .eofErr
      | some (tagB, bs3) =>
        match takeE (beDecode klenB) bs3 with
        | none => .error .eofErr
        | some (keyB, bs4) =>
          if validUtf8 keyB then
            match takeE (beDecode vlenB) bs4 with
            | none => .error .eofErr
            | some (valB, bs5) =>
              match MemValue.deserialize tagB.headI valB with
              | .ok v => .ok (⟨keyB, v⟩, bs5)
              | .error e => .error e
          else .error .invalidData

/-- Well-formedness of a value (§3 of the spec): Str payloads are valid UTF-8 of
length at most 65535; Int64 fits in a signed 64-bit integer; Float64 bit
patterns fit in 64 bits. -/
def Value.wf : Value → Prop
  | .Str s => validUtf8 s = true ∧ s.length ≤ 65535
  | .Int64 i => -((2 : Int) ^ 63) ≤ i ∧ i < (2 : Int) ^ 63
  | .Float64 bits => bits < 2 ^ 64

theorem beBytes_length (w n : Nat) : (beBytes w n).length = w := by
  induction w generalizing n with
  | zero => rfl
  | succ w ih => simp [beBytes, ih]

theorem beDecode_append_one (xs : List Nat) (b : Nat) :
    beDecode (xs ++ [b]) = beDecode xs * 256 + b := by
  simp [beDecode, List.foldl_append]

theorem beDecode_beBytes (w n : Nat) : beDecode (beBytes w n) = n % 256 ^ w := by
  induction w generalizing n with
  | zero => simp [beBytes, beDecode, Nat.mod_one]
  | succ w ih =>
    rw [beBytes, beDecode_append_one, ih]
    have h : (256 : Nat) ^ (w + 1) = 256 * 256 ^ w := by ring
    rw [h, Nat.mod_mul]
    ring

theorem takeE_append (xs rest : List Nat) : takeE xs.length (xs ++ rest) = some (xs, rest) := by
  simp [takeE]

theorem int64OfBits_int64Bits (i : Int) (h1 : -((2 : Int) ^ 63) ≤ i)
    (h2 : i < (2 : Int) ^ 63) : int64OfBits (int64Bits i) = i := by
  unfold int64OfBits int64Bits
  omega

theorem int64Bits_lt (i : Int) : int64Bits i < 2 ^ 64 := by
  unfold int64Bits
  omega

/-- C10: MemValue::deserialize accepts the Tombstone tag 255 with any payload of
any length; the wire-format constraint that a tombstone has an empty payload is
not enforced on read. -/
theorem deserialize_tombstone_ignores_payload (bytes : List Nat) :
    MemValue.deserialize 255 bytes = .ok .Tombstone := by
  simp [MemValue.deserialize]

theorem deserialize_serialize (v : MemValue)
    (hwf : ∀ u, v = .Value u → u.wf) :
    MemValue.deserialize v.typeTag v.serialize = .ok v := by
  match v with
  | .Tombstone => simp [MemValue.deserialize, MemValue.typeTag, MemValue.serialize]
  | .Value (.Str s) =>
    have h := hwf (.Str s) rfl
    simp only [Value.wf] at h
    simp [MemValue.deserialize, MemValue.typeTag, MemValue.serialize, h.1]
  | .Value (.Int64 i) =>
    have h := hwf (.Int64 i) rfl
    simp only [Value.wf] at h
    have hok : int64OfBits (int64Bits i % 2 ^ 64) = i := by
      unfold int64OfBits int64Bits
      omega
    norm_num at hok
    simp [MemValue.deserialize, MemValue.typeTag, MemValue.serialize, beBytes_length,
      beDecode_beBytes, hok]
  | .Value (.Float64 bits) =>
    have h := hwf (.Float64 bits) rfl
    simp only [Value.wf] at h
    norm_num at h
    have hm : bits % 18446744073709551616 = bits := Nat.mod_eq_of_lt h
    simp [MemValue.deserialize, MemValue.typeTag, MemValue.serialize, beBytes_length,
      beDecode_beBytes, hm]

theorem serialize_length_le (v : MemValue) (hwf : ∀ u, v = .Value u → u.wf) :
    v.serialize.length ≤ 65535 := by
  match v with
  | .Tombstone => simp [MemValue.serialize]
  | .Value (.Str s) =>
    have h := hwf (.Str s) rfl
    simp only [Value.wf] at h
    simpa [MemValue.serialize] using h.2
  | .Value (.Int64 i) => simp [MemValue.serialize, beBytes_length]
  | .Value (.Float64 bits) => simp [MemValue.serialize, beBytes_length]

theorem takeE_append_of_length (n : Nat) (xs rest : List Nat) (h : xs.length = n) :
    takeE n (xs ++ rest) = some (xs, rest) := by
  subst h; exact takeE_append xs rest

/-- Parsing a written record: the header fields decode to the true lengths and
each read splits the stream at the intended boundary. -/
theorem readFrom_writeBytes (r : Record) (rest : List Nat)
    (hk : r.key.length ≤ 65535) (hutf : validUtf8 r.key = true)
    (hwf : ∀ u, r.value = .Value u → u.wf) :
    Record.readFrom (r.writeBytes ++ rest) = .ok (r, rest) := by
  have hvl : r.value.serialize.length ≤ 65535 := serialize_length_le r.value hwf
  have hdk : beDecode (beBytes 2 r.key.length) = r.key.length := by
    rw [beDecode_beBytes]
    exact Nat.mod_eq_of_lt (by omega)
  have hdv : beDecode (beBytes 2 r.value.serialize.length) = r.value.serialize.length := by
    rw [beDecode_beBytes]
    exact Nat.mod_eq_of_lt (by omega)
  simp only [Record.writeBytes, List.append_assoc]
  rw [Record.readFrom]
  rw [takeE_append_of_length 2 _ _ (beBytes_length 2 _)]
  simp only []
  rw [takeE_append_of_length 2 _ _ (beBytes_length 2 _)]
  simp only []
  rw [takeE_append_of_length 1 [r.value.typeTag] _ rfl]
  simp only [hdk]
  rw [takeE_append_of_length r.key.length _ _ rfl]
  simp only [hutf, if_true, hdv, List.headI]
  rw [takeE_append_of_length r.value.serialize.length _ _ rfl]
  simp only [deserialize_serialize r.value hwf]

/-- C4: writing any record with a non-empty key of length at most 65535 and a
well-formed value with Record::write_to, then reading the emitted bytes back with
Record::read_from, reproduces the same key and the same value variant with equal
payload; Int64 and Float64 payloads keep their exact bit patterns (negative zero
and every finite value are distinct bit patterns, preserved as such). -/
theorem record_roundtrip (r : Record) (hne : r.key ≠ []) (hk : r.key.length ≤ 65535)
    (hutf : validUtf8 r.key = true) (hwf : ∀ u, r.value = .Value u → u.wf) :
    Record.readFrom r.writeBytes = .ok (r, []) := by
  have h := readFrom_writeBytes r [] hk hutf hwf
  simpa using h

theorem record_roundtrip_witness :
    (([107] : List Nat) ≠ [] ∧ ([107] : List Nat).length ≤ 65535 ∧
      validUtf8 [107] = true ∧
      (∀ u, MemValue.Value (.Int64 (-1)) = .Value u → u.wf)) ∧
    Record.readFrom (Record.writeBytes ⟨[107], .Value (.Int64 (-1))⟩) =
      .ok (⟨[107], .Value (.Int64 (-1))⟩, []) := by
  have hwf : ∀ u, MemValue.Value (.Int64 (-1)) = .Value u → u.wf := by
    intro u h
    cases h
    constructor <;> norm_num
  exact ⟨⟨by decide, by decide, by decide, hwf⟩,
    record_roundtrip ⟨[107], .Value (.Int64 (-1))⟩ (by decide) (by decide) (by decide) hwf⟩

theorem keyLt_irrefl (a : Key) : keyLt a a = false := by
  induction a with
  | nil => rfl
  | cons x xs ih => simp [keyLt, ih]

theorem keyLt_trans {a b c : Key} (h1 : keyLt a b = true) (h2 : keyLt b c = true) :
    keyLt a c = true := by
  induction a generalizing b c with
  | nil =>
    cases b with
    | nil => simp [keyLt] at h1
    | cons y ys =>
      cases c with
      | nil => simp [keyLt] at h2
      | cons z zs => simp [keyLt]
  | cons x xs ih =>
    cases b with
    | nil => simp [keyLt] at h1
    | cons y ys =>
      cases c with
      | nil => simp [keyLt] at h2
      | cons z zs =>
        simp only [keyLt, Bool.or_eq_true, Bool.and_eq_true, beq_iff_eq,
          decide_eq_true_eq] at h1 h2 ⊢
        rcases h1 with h1 | ⟨rfl, h1⟩
        · rcases h2 with h2 | ⟨rfl, _⟩
          · exact Or.inl (Nat.lt_trans h1 h2)
          · exact Or.inl h1
        · rcases h2 with h2 | ⟨rfl, h2⟩
          · exact Or.inl h2
          · exact Or.inr ⟨rfl, ih h1 h2⟩

theorem keyLt_connex {a b : Key} (h1 : keyLt a b = false) (h2 : keyLt b a = false) :
    a = b := by
  induction a generalizing b with
  | nil =>
    cases b with
    | nil => rfl
    | cons y ys => simp [keyLt] at h1
  | cons x xs ih =>
    cases b with
    | nil => simp [keyLt] at h2
    | cons y ys =>
      simp only [keyLt, Bool.or_eq_false_iff, Bool.and_eq_false_iff, beq_eq_false_iff_ne,
        ne_eq, decide_eq_false_iff_not, Nat.not_lt] at h1 h2
      have hxy : x = y := by omega
      subst hxy
      rcases h1.2 with h | h
      · exact absurd rfl h
      · rcases h2.2 with h' | h'
        · exact absurd rfl h'
        · rw [ih h h']

theorem keyLt_asymm {a b : Key} (h : keyLt a b = true) : keyLt b a = false := by
  by_contra hc
  have hba : keyLt b a = true := by
    cases hcb : keyLt b a
    · exact absurd hcb hc
    · rfl
  have := keyLt_trans h hba
  rw [keyLt_irrefl] at this
  exact absurd this (by simp)

/-- sparse_index.rs ScanRange. -/
inductive ScanRange where
  | Exact (offset : Nat)
  | FromBegin (endO : Nat)
  | Range (start endO : Nat)
  | ToEnd (start : Nat)
deriving DecidableEq

/-- sparse_index.rs SparseIndex: a BTreeMap from key to byte offset, modelled as
an association list; the BTreeMap intrinsic ordering (keys strictly ascending)
is carried as a hypothesis where a theorem needs it. -/
abbrev SparseIndex := List (Key × Nat)

/-- Strictly-ascending-keys invariant of a BTreeMap association list. -/
def IdxSorted (index : SparseIndex) : Prop :=
  index.Pairwise (fun a b => keyLt a.1 b.1 = true)

/-- bounds from sparse_index.rs. upper is the first entry with key at least the
query (range(key..).next()); lower is the last entry with key at most the query
(range(..=key).next_back()); none models the panic on the neither-bound branch.
The Exact branch compares the two offsets, exactly as the source does. -/
def bounds (index : SparseIndex) (key : Key) : Option ScanRange :=
  let upper := index.find? (fun e => !keyLt e.1 key)
  let lower := index.reverse.find? (fun e => !keyLt key e.1)
  match lower, upper with
  | some l, some u =>
    if l.2 == u.2 then some (.Exact l.2) else some (.Range l.2 u.2)
  | some l, none => some (.ToEnd l.2)
  | none, some u => some (.FromBegin u.2)
  | none, none => none

/-- Modelled from the spec: the smallest index entry with key at least the query. -/
def IsLeastGE (index : SparseIndex) (q : Key) (u : Key × Nat) : Prop :=
  u ∈ index ∧ keyLt u.1 q = false ∧
    ∀ x ∈ index, keyLt x.1 q = false → keyLt x.1 u.1 = false

/-- Modelled from the spec: the greatest index entry with key at most the query. -/
def IsGreatestLE (index : SparseIndex) (q : Key) (l : Key × Nat) : Prop :=
  l ∈ index ∧ keyLt q l.1 = false ∧
    ∀ x ∈ index, keyLt q x.1 = false → keyLt l.1 x.1 = false

theorem upper_char (index : SparseIndex) (q : Key) (hsort : IdxSorted index)
    (u : Key × Nat) :
    index.find? (fun e => !keyLt e.1 q) = some u ↔ IsLeastGE index q u := by
  induction index with
  | nil => simp [IsLeastGE]
  | cons a rest ih =>
    rw [IdxSorted, List.pairwise_cons] at hsort
    cases hp : keyLt a.1 q with
    | false =>
      constructor
      · intro h
        rw [List.find?_cons_of_pos _ (by simp [hp])] at h
        injection h with h
        subst h
        refine ⟨List.mem_cons_self _ _, hp, ?_⟩
        intro x hx _
        rcases List.mem_cons.mp hx with rfl | hx
        · exact keyLt_irrefl _
        · exact keyLt_asymm (hsort.1 x hx)
      · rintro ⟨hmem, hple, hmin⟩
        rw [List.find?_cons_of_pos _ (by simp [hp])]
        rcases List.mem_cons.mp hmem with rfl | hmem
        · rfl
        · have h1 := hmin a (List.mem_cons_self a rest) hp
          have h2 := hsort.1 u hmem
          rw [h2] at h1
          exact absurd h1 (by simp)
    | true =>
      rw [List.find?_cons_of_neg _ (by simp [hp])]
      rw [ih hsort.2]
      unfold IsLeastGE
      constructor
      · rintro ⟨hmem, hple, hmin⟩
        refine ⟨List.mem_cons_of_mem a hmem, hple, ?_⟩
        intro x hx hxq
        rcases List.mem_cons.mp hx with rfl | hx
        · rw [hp] at hxq
          exact absurd hxq (by simp)
        · exact hmin x hx hxq
      · rintro ⟨hmem, hple, hmin⟩
        rcases List.mem_cons.mp hmem with rfl | hmem
        · rw [hp] at hple
          exact absurd hple (by simp)
        · exact ⟨hmem, hple, fun x hx hxq => hmin x (List.mem_cons_of_mem a hx) hxq⟩

theorem lower_char (index : SparseIndex) (q : Key) (hsort : IdxSorted index)
    (l : Key × Nat) :
    index.reverse.find? (fun e => !keyLt q e.1) = some l ↔ IsGreatestLE index q l := by
  induction index using List.reverseRecOn with
  | nil => simp [IsGreatestLE]
  | append_singleton rest a ih =>
    rw [IdxSorted] at hsort
    have hsort' : IdxSorted rest := List.Pairwise.sublist (by simp) hsort
    have hlast : ∀ x ∈ rest, keyLt x.1 a.1 = true := by
      intro x hx
      have h := (List.pairwise_append.mp hsort).2.2
      exact h x hx a (List.mem_singleton_self a)
    rw [List.reverse_append]
    simp only [List.reverse_singleton, List.singleton_append]
    cases hp : keyLt q a.1 with
    | false =>
      constructor
      · intro h
        rw [List.find?_cons_of_pos _ (by simp [hp])] at h
        cases h
        refine ⟨by simp, hp, ?_⟩
        intro x hx _
        rcases List.mem_append.mp hx with hx | hx
        · exact keyLt_asymm (hlast x hx)
        · rw [List.mem_singleton.mp hx]
          exact keyLt_irrefl _
      · rintro ⟨hmem, hple, hmin⟩
        rw [List.find?_cons_of_pos _ (by simp [hp])]
        rcases List.mem_append.mp hmem with hmem | hmem
        · have h1 := hmin a (by simp) hp
          have h2 := hlast l hmem
          rw [h2] at h1
          exact absurd h1 (by simp)
        · rw [List.mem_singleton.mp hmem]
    | true =>
      rw [List.find?_cons_of_neg _ (by simp [hp])]
      rw [ih hsort']
      unfold IsGreatestLE
      constructor
      · rintro ⟨hmem, hple, hmin⟩
        refine ⟨List.mem_append_left _ hmem, hple, ?_⟩
        intro x hx hxq
        rcases List.mem_append.mp hx with hx | hx
        · exact hmin x hx hxq
        · rw [List.mem_singleton.mp hx] at hxq
          rw [hp] at hxq
          exact absurd hxq (by simp)
      · rintro ⟨hmem, hple, hmin⟩
        rcases List.mem_append.mp hmem with hmem | hmem
        · exact ⟨hmem, hple, fun x hx hxq => hmin x (List.mem_append_left _ hx) hxq⟩
        · rw [List.mem_singleton.mp hmem] at hple
          rw [hp] at hple
          exact absurd hple (by simp)

/-- C7: on any non-empty sparse index, bounds finds at least one of the two
bounds, so the neither-bound branch (the panic, InvariantViolation in the spec)
is unreachable and bounds is total. -/
theorem bounds_total (index : SparseIndex) (key : Key) (h : index ≠ []) :
    (bounds index key).isSome = true := by
  cases hl : index.reverse.find? (fun e => !keyLt key e.1) with
  | some l =>
    cases hu : index.find? (fun e => !keyLt e.1 key) with
    | some u =>
      simp only [bounds, hl, hu]
      split <;> rfl
    | none => simp [bounds, hl, hu]
  | none =>
    cases hu : index.find? (fun e => !keyLt e.1 key) with
    | some u => simp [bounds, hl, hu]
    | none =>
      exfalso
      obtain ⟨e, rest, rfl⟩ := List.exists_cons_of_ne_nil h
      have h1 := List.find?_eq_none.mp hu e (List.mem_cons_self _ _)
      have h2 := List.find?_eq_none.mp hl e (by simp)
      simp only [Bool.not_eq_true', Bool.not_eq_false] at h1 h2
      rw [keyLt_asymm h1] at h2
      exact Bool.noConfusion h2

theorem bounds_total_witness :
    ([(([97] : Key), 0)] ≠ ([] : SparseIndex)) ∧
      (bounds [(([97] : Key), 0)] [98]).isSome = true :=
  ⟨by decide, bounds_total [(([97] : Key), 0)] [98] (by decide)⟩

/-- C6: full characterization of the bracketing lookup on a sparse index whose
keys are strictly ascending and whose offsets are pairwise distinct (offsets of
distinct records in one data file): Exact fires exactly at index entries, Range
exactly when greatest-at-most and least-at-least entries both exist and differ,
FromBegin exactly when the query precedes every index key, and ToEnd exactly
when it follows every index key. -/
theorem bounds_correct (index : SparseIndex) (q : Key)
    (hsort : IdxSorted index)
    (hoff : index.Pairwise fun a b => a.2 ≠ b.2) :
    (∀ o, bounds index q = some (.Exact o) ↔ (q, o) ∈ index) ∧
    (∀ s e, bounds index q = some (.Range s e) ↔
      ∃ l u, l ∈ index ∧ u ∈ index ∧ l ≠ u ∧ l.2 = s ∧ u.2 = e ∧
        IsGreatestLE index q l ∧ IsLeastGE index q u) ∧
    (∀ e, bounds index q = some (.FromBegin e) ↔
      (∃ u, u.2 = e ∧ IsLeastGE index q u) ∧ ∀ x ∈ index, keyLt q x.1 = true) ∧
    (∀ s, bounds index q = some (.ToEnd s) ↔
      (∃ l, l.2 = s ∧ IsGreatestLE index q l) ∧ ∀ x ∈ index, keyLt x.1 q = true) := by
  have hdiff : ∀ a b : Key × Nat, a ∈ index → b ∈ index → a.2 = b.2 → a = b := by
    intro a b ha hb he
    by_contra hab
    exact List.Pairwise.forall (fun x y hxy => hxy.symm) hoff ha hb hab he
  have hlc := lower_char index q hsort
  have huc := upper_char index q hsort
  have hmemq : ∀ o, (q, o) ∈ index → IsGreatestLE index q (q, o) ∧ IsLeastGE index q (q, o) := by
    intro o hmem
    refine ⟨⟨hmem, keyLt_irrefl q, ?_⟩, ⟨hmem, keyLt_irrefl q, ?_⟩⟩
    · intro x _ hx
      exact hx
    · intro x _ hx
      exact hx
  cases hl : index.reverse.find? (fun e => !keyLt q e.1) with
  | none =>
    have hall : ∀ x ∈ index, keyLt q x.1 = true := by
      intro x hx
      have h := List.find?_eq_none.mp hl x (List.mem_reverse.mpr hx)
      simpa using h
    cases hu : index.find? (fun e => !keyLt e.1 q) with
    | none =>
      refine ⟨?_, ?_, ?_, ?_⟩ <;> intro a
      · simp only [bounds, hl, hu]
        constructor
        · intro h
          exact absurd h (by simp)
        · intro h
          have hirr := hall (q, a) h
          rw [keyLt_irrefl] at hirr
          exact Bool.noConfusion hirr
      · intro e
        simp only [bounds, hl, hu]
        constructor
        · intro h
          exact absurd h (by simp)
        · rintro ⟨l0, u0, _, _, _, _, _, hg, _⟩
          have := (hlc l0).mpr hg
          rw [hl] at this
          exact Option.noConfusion this
      · simp only [bounds, hl, hu]
        constructor
        · intro h
          exact absurd h (by simp)
        · rintro ⟨⟨u0, _, hle⟩, _⟩
          have := (huc u0).mpr hle
          rw [hu] at this
          exact Option.noConfusion this
      · simp only [bounds, hl, hu]
        constructor
        · intro h
          exact absurd h (by simp)
        · rintro ⟨⟨l0, _, hg⟩, _⟩
          have := (hlc l0).mpr hg
          rw [hl] at this
          exact Option.noConfusion this
    | some u =>
      have hule := (huc u).mp hu
      refine ⟨?_, ?_, ?_, ?_⟩ <;> intro a
      · simp only [bounds, hl, hu]
        constructor
        · intro h
          exact absurd h (by simp)
        · intro h
          have hirr := hall (q, a) h
          rw [keyLt_irrefl] at hirr
          exact Bool.noConfusion hirr
      · intro e
        simp only [bounds, hl, hu]
        constructor
        · intro h
          exact absurd h (by simp)
        · rintro ⟨l0, u0, _, _, _, _, _, hg, _⟩
          have := (hlc l0).mpr hg
          rw [hl] at this
          exact Option.noConfusion this
      · simp only [bounds, hl, hu]
        constructor
        · intro h
          injection h with h
          injection h with h
          exact ⟨⟨u, h, hule⟩, hall⟩
        · rintro ⟨⟨u0, he, hle⟩, _⟩
          have := (huc u0).mpr hle
          rw [hu] at this
          injection this with this
          rw [this, he]
      · simp only [bounds, hl, hu]
        constructor
        · intro h
          exact absurd h (by simp)
        · rintro ⟨⟨l0, _, hg⟩, _⟩
          have := (hlc l0).mpr hg
          rw [hl] at this
          exact Option.noConfusion this
  | some l =>
    have hlge := (hlc l).mp hl
    cases hu : index.find? (fun e => !keyLt e.1 q) with
    | none =>
      have hall : ∀ x ∈ index, keyLt x.1 q = true := by
        intro x hx
        have h := List.find?_eq_none.mp hu x hx
        simpa using h
      refine ⟨?_, ?_, ?_, ?_⟩ <;> intro a
      · simp only [bounds, hl, hu]
        constructor
        · intro h
          exact absurd h (by simp)
        · intro h
          have hirr := hall (q, a) h
          rw [keyLt_irrefl] at hirr
          exact Bool.noConfusion hirr
      · intro e
        simp only [bounds, hl, hu]
        constructor
        · intro h
          exact absurd h (by simp)
        · rintro ⟨l0, u0, _, _, _, _, _, _, hle⟩
          have := (huc u0).mpr hle
          rw [hu] at this
          exact Option.noConfusion this
      · simp only [bounds, hl, hu]
        constructor
        · intro h
          exact absurd h (by simp)
        · rintro ⟨⟨u0, _, hle⟩, _⟩
          have := (huc u0).mpr hle
          rw [hu] at this
          exact Option.noConfusion this
      · simp only [bounds, hl, hu]
        constructor
        · intro h
          injection h with h
          injection h with h
          exact ⟨⟨l, h, hlge⟩, hall⟩
        · rintro ⟨⟨l0, hs, hg⟩, _⟩
          have := (hlc l0).mpr hg
          rw [hl] at this
          injection this with this
          rw [this, hs]
    | some u =>
      have hule := (huc u).mp hu
      cases hbe : l.2 == u.2 with
      | true =>
        have hlu : l = u := hdiff l u hlge.1 hule.1 (by simpa using hbe)
        have hkeyq : l.1 = q := by
          apply keyLt_connex
          · subst hlu
            exact hule.2.1
          · exact hlge.2.1
        refine ⟨?_, ?_, ?_, ?_⟩
        · intro a
          simp only [bounds, hl, hu, hbe, if_true]
          constructor
          · intro h
            injection h with h
            injection h with h
            have hq : (q, a) = l := by
              rw [← hkeyq, ← h]
            rw [hq]
            exact hlge.1
          · intro h
            obtain ⟨hg, _⟩ := hmemq a h
            have h1 := (hlc (q, a)).mpr hg
            rw [hl] at h1
            injection h1 with h1
            rw [h1]
        · intro s e
          simp only [bounds, hl, hu, hbe, if_true]
          constructor
          · intro h
            exact absurd h (by simp)
          · rintro ⟨l0, u0, _, _, hne0, _, _, hg, hle⟩
            have h1 := (hlc l0).mpr hg
            rw [hl] at h1
            injection h1 with h1
            have h2 := (huc u0).mpr hle
            rw [hu] at h2
            injection h2 with h2
            rw [← h1, ← h2] at hne0
            exact absurd hlu hne0
        · intro e
          simp only [bounds, hl, hu, hbe, if_true]
          constructor
          · intro h
            exact absurd h (by simp)
          · rintro ⟨_, hall⟩
            have h2 := hall l hlge.1
            rw [hlge.2.1] at h2
            exact Bool.noConfusion h2
        · intro s
          simp only [bounds, hl, hu, hbe, if_true]
          constructor
          · intro h
            exact absurd h (by simp)
          · rintro ⟨_, hall⟩
            have h2 := hall u hule.1
            rw [hule.2.1] at h2
            exact Bool.noConfusion h2
      | false =>
        have hlu : l ≠ u := by
          intro h
          rw [h] at hbe
          simp at hbe
        refine ⟨?_, ?_, ?_, ?_⟩
        · intro a
          simp only [bounds, hl, hu, hbe, Bool.false_eq_true, if_false]
          constructor
          · intro h
            exact absurd h (by simp)
          · intro h
            obtain ⟨hg, hle⟩ := hmemq a h
            have h1 := (hlc (q, a)).mpr hg
            rw [hl] at h1
            injection h1 with h1
            have h2 := (huc (q, a)).mpr hle
            rw [hu] at h2
            injection h2 with h2
            exact absurd (by rw [h1, h2]) hlu
        · intro s e
          simp only [bounds, hl, hu, hbe, Bool.false_eq_true, if_false]
          constructor
          · intro h
            injection h with h
            injection h with h1 h2
            exact ⟨l, u, hlge.1, hule.1, hlu, h1, h2, hlge, hule⟩
          · rintro ⟨l0, u0, _, _, _, hs, he, hg, hle⟩
            have h1 := (hlc l0).mpr hg
            rw [hl] at h1
            injection h1 with h1
            have h2 := (huc u0).mpr hle
            rw [hu] at h2
            injection h2 with h2
            rw [h1, h2, hs, he]
        · intro e
          simp only [bounds, hl, hu, hbe, Bool.false_eq_true, if_false]
          constructor
          · intro h
            exact absurd h (by simp)
          · rintro ⟨_, hall⟩
            have h2 := hall l hlge.1
            rw [hlge.2.1] at h2
            exact Bool.noConfusion h2
        · intro s
          simp only [bounds, hl, hu, hbe, Bool.false_eq_true, if_false]
          constructor
          · intro h
            exact absurd h (by simp)
          · rintro ⟨_, hall⟩
            have h2 := hall u hule.1
            rw [hule.2.1] at h2
            exact Bool.noConfusion h2

theorem bounds_correct_witness :
    (IdxSorted [(([97] : Key), 0), ([99], 7)] ∧
      ([(([97] : Key), 0), ([99], 7)] : SparseIndex).Pairwise (fun a b => a.2 ≠ b.2)) ∧
    ((∀ o, bounds [(([97] : Key), 0), ([99], 7)] [98] = some (.Exact o) ↔
        (([98] : Key), o) ∈ [(([97] : Key), 0), ([99], 7)]) ∧
      (∀ s e, bounds [(([97] : Key), 0), ([99], 7)] [98] = some (.Range s e) ↔
        ∃ l u, l ∈ [(([97] : Key), 0), ([99], 7)] ∧ u ∈ [(([97] : Key), 0), ([99], 7)] ∧
          l ≠ u ∧ l.2 = s ∧ u.2 = e ∧
          IsGreatestLE [(([97] : Key), 0), ([99], 7)] [98] l ∧
          IsLeastGE [(([97] : Key), 0), ([99], 7)] [98] u) ∧
      (∀ e, bounds [(([97] : Key), 0), ([99], 7)] [98] = some (.FromBegin e) ↔
        (∃ u, u.2 = e ∧ IsLeastGE [(([97] : Key), 0), ([99], 7)] [98] u) ∧
          ∀ x ∈ [(([97] : Key), 0), ([99], 7)], keyLt [98] x.1 = true) ∧
      (∀ s, bounds [(([97] : Key), 0), ([99], 7)] [98] = some (.ToEnd s) ↔
        (∃ l, l.2 = s ∧ IsGreatestLE [(([97] : Key), 0), ([99], 7)] [98] l) ∧
          ∀ x ∈ [(([97] : Key), 0), ([99], 7)], keyLt x.1 [98] = true)) :=
  ⟨⟨by unfold IdxSorted; decide, by decide⟩,
    bounds_correct [(([97] : Key), 0), ([99], 7)] [98] (by unfold IdxSorted; decide) (by decide)⟩

theorem takeE_some {n : Nat} {bs xs rest : List Nat} (h : takeE n bs = some (xs, rest)) :
    n ≤ bs.length ∧ xs.length = n ∧ rest.length = bs.length - n ∧ bs = xs ++ rest := by
  unfold takeE at h
  split at h
  next hle =>
    injection h with h
    cases h
    refine ⟨hle, ?_, List.length_drop _ _, (List.take_append_drop n bs).symm⟩
    rw [List.length_take]
    omega
  next => exact absurd h (by simp)

/-- manifest.rs Manifest and SSTableEntry: the structured content of the TOML
document — version, last_sequence, and the ordered (data_path, index_path)
list. The TOML surface syntax is not modelled; a manifest that fails to parse
is not representable (the source panics on it). -/
structure Manifest where
  version : String
  last_sequence : Nat
  sstables : List (String × String)
deriving DecidableEq

/-- Modelled from the spec: version.rs is missing from the sources (only mod
version and version::VERSION appear). Per §4.7 the manifest carries the
engine's compiled semantic version string and only equality with it is ever
tested, so the concrete value is irrelevant to every claim. -/
def VERSION : String := "0.1.0"

/-- The five-digit zero-padded file names produced by format with 0>5. -/
def seqName (n : Nat) (ext : String) : String :=
  let s := toString n
  String.mk (List.replicate (5 - s.length) '0') ++ s ++ ext

/-- The data directory: the MANIFEST (none when absent) and the named files
with their byte contents. -/
structure Disk where
  manifest : Option Manifest
  files : List (String × List Nat)
deriving DecidableEq

/-- File::create followed by writing bytes: truncates any previous content. -/
def fsWrite (path : String) (bytes : List Nat) (files : List (String × List Nat)) :
    List (String × List Nat) :=
  (path, bytes) :: files.filter (fun f => !(f.1 == path))

/-- File::open plus reading a whole file; none is a NotFound open error. -/
def fsRead (path : String) (files : List (String × List Nat)) : Option (List Nat) :=
  (files.find? (fun f => f.1 == path)).map (fun f => f.2)

/-- lib.rs SSTable: the in-memory descriptor (loaded sparse index and the two
file names). -/
structure SSTableL where
  index : SparseIndex
  index_path : String
  data_path : String
deriving DecidableEq

/-- lib.rs Database together with the SSTableSet fields (tables,
last_sequence), the sparse_stride drawn from Config, and the data directory.
The memtable is a BTreeMap from String to String, modelled as a key-sorted
association list of byte strings. -/
structure Database where
  memtable : List (Key × Key)
  tables : List SSTableL
  last_sequence : Nat
  sparse_stride : Nat
  disk : Disk
deriving DecidableEq

/-- config.rs Config (data_dir omitted: all paths in the model are relative to
it). -/
structure Config where
  sparse_stride : Nat
  memtable_capacity : Nat
  create_if_missing : Bool
deriving DecidableEq

/-- BTreeMap::insert on a key-sorted association list: replaces any prior slot
for the key in place. -/
def mtInsert (k v : Key) : List (Key × Key) → List (Key × Key)
  | [] => [(k, v)]
  | (k0, v0) :: rest =>
    if keyLt k k0 then (k, v) :: (k0, v0) :: rest
    else if k == k0 then (k, v) :: rest
    else (k0, v0) :: mtInsert k v rest

/-- BTreeMap::remove on a key-sorted association list. -/
def mtRemove (k : Key) : List (Key × Key) → List (Key × Key)
  | [] => []
  | (k0, v0) :: rest => if k == k0 then rest else (k0, v0) :: mtRemove k rest

/-- BTreeMap::get on a key-sorted association list. -/
def mtGet (k : Key) : List (Key × Key) → Option Key
  | [] => none
  | (k0, v0) :: rest => if k == k0 then some v0 else mtGet k rest

/-- BTreeMap::insert for the sparse index map. -/
def idxInsert (k : Key) (off : Nat) : SparseIndex → SparseIndex
  | [] => [(k, off)]
  | (k0, o0) :: rest =>
    if keyLt k k0 then (k, off) :: (k0, o0) :: rest
    else if k == k0 then (k, off) :: rest
    else (k0, o0) :: idxInsert k off rest

/-- write_record from lib.rs: u16 key_len, u16 val_len, key bytes, value bytes.
Note: unlike Record::write_to of record.rs, this writer emits no type-tag
byte. -/
def write_record (key value : Key) : List Nat :=
  beBytes 2 key.length ++ beBytes 2 value.length ++ key ++ value

/-- write_sparse_index from sparse_index.rs: u16 key_len, key bytes, u64
offset, per entry in map order. -/
def writeSparseIndex (index : SparseIndex) : List Nat :=
  (index.map (fun e => beBytes 2 e.1.length ++ e.1 ++ beBytes 8 e.2)).flatten

/-- Injected failure points of Database::flush, in source order: creating the
data file, creating the index file, the i-th write_record call, the final data
flush, the sparse-index write, creating the MANIFEST file, and writing it.
noFail runs the flush without injected failures. -/
inductive FailPoint where
  | noFail
  | createData
  | createIndex
  | writeRecord (i : Nat)
  | flushData
  | writeIndex
  | manifestCreate
  | manifestWrite
deriving DecidableEq

/-- The record-writing loop of Database::flush: each memtable entry goes
through write_record; every sparse_stride-th record registers its key at the
offset preceding its own bytes. An injected failure at the i-th write aborts
the loop. -/
def flushLoopGo (stride : Nat) (fp : FailPoint) :
    Nat → Nat → List Nat → SparseIndex → List (Key × Key) →
      Except Err (List Nat × SparseIndex)
  | _, _, data, index, [] => .ok (data, index)
  | i, offset, data, index, (key, value) :: rest =>
    if fp == .writeRecord i then .error .ioErr
    else
      let bytes := write_record key value
      let index1 := if i % stride == 0 then idxInsert key offset index else index
      flushLoopGo stride fp (i + 1) (offset + bytes.length) (data ++ bytes) index1 rest

/-- Manifest::new from manifest.rs. -/
def manifestOf (db : Database) : Manifest :=
  { version := VERSION
    last_sequence := db.last_sequence
    sstables := db.tables.map (fun t => (t.data_path, t.index_path)) }

/-- Database::flush from lib.rs, with an injected failure point. The memtable
is drained with std::mem::take before the record loop runs; the data flush and
the index write are joined, so a failure of one still lets the other reach the
disk; the new table is prepended to the set and last_sequence bumped before
the manifest is rewritten through File::create (which truncates first). -/
def Database.flush (db : Database) (fp : FailPoint) : Database × Except Err Unit :=
  let next_sequence := db.last_sequence + 1
  let data_path := seqName next_sequence ".db"
  let index_path := seqName next_sequence ".idx"
  if fp == .createData then (db, .error .ioErr)
  else if fp == .createIndex then
    ({ db with disk := { db.disk with files := fsWrite data_path [] db.disk.files } },
      .error .ioErr)
  else
    let entries := db.memtable
    let db1 := { db with
      memtable := []
      disk := { db.disk with
        files := fsWrite index_path [] (fsWrite data_path [] db.disk.files) } }
    match flushLoopGo db.sparse_stride fp 0 0 [] [] entries with
    | .error e => (db1, .error e)
    | .ok (data, index) =>
      if fp == .flushData then
        ({ db1 with disk := { db1.disk with
            files := fsWrite index_path (writeSparseIndex index) db1.disk.files } },
          .error .ioErr)
      else if fp == .writeIndex then
        ({ db1 with disk := { db1.disk with
            files := fsWrite data_path data db1.disk.files } },
          .error .ioErr)
      else
        let db2 := { db1 with
          tables := { index := index, index_path := index_path, data_path := data_path }
            :: db1.tables
          last_sequence := next_sequence
          disk := { db1.disk with
            files := fsWrite index_path (writeSparseIndex index)
              (fsWrite data_path data db1.disk.files) } }
        if fp == .manifestCreate then (db2, .error .ioErr)
        else if fp == .manifestWrite then
          ({ db2 with disk := { db2.disk with manifest := none } }, .error .ioErr)
        else
          ({ db2 with disk := { db2.disk with manifest := some (manifestOf db2) } },
            .ok ())

/-- Database::set from lib.rs: a plain BTreeMap insert of the value string. -/
def Database.set (db : Database) (key value : Key) : Database :=
  { db with memtable := mtInsert key value db.memtable }

/-- Database::delete from lib.rs: a plain BTreeMap remove, returning the
removed value — no tombstone is recorded anywhere. -/
def Database.delete (db : Database) (key : Key) : Database × Option Key :=
  ({ db with memtable := mtRemove key db.memtable }, mtGet key db.memtable)

/-- Database::read_exact from lib.rs: seek to the offset and parse one tagless
record header and body; String::from_utf8 unwrap panics on invalid bytes. -/
def readExactAt (bytes : List Nat) (offset : Nat) : Except Err (Key × Key) :=
  let bs := bytes.drop offset
  match takeE 2 bs with
  | none => .error .eofErr
  | some (klenB, bs1) =>
    match takeE 2 bs1 with
    | none => .error .eofErr
    | some (vlenB, bs2) =>
      match takeE (beDecode klenB) bs2 with
      | none => .error .eofErr
      | some (keyB, bs3) =>
        match takeE (beDecode vlenB) bs3 with
        | none => .error .eofErr
        | some (valB, _) =>
          if validUtf8 keyB && validUtf8 valB then .ok (keyB, valB)
          else .error .panicked

/-- Database::scan_range from lib.rs, after seeking to the start offset: read
tagless records in sequence; stop with absent once the running offset passes
endO or the file ends at a record boundary; a mid-record end of file is an
error; a non-matching record's value is skipped by seeking, which may run past
the end of the file without error. bs is the file content from the current
position. -/
def scanLoop (key : Key) (endO : Nat) (offset : Nat) (bs : List Nat) :
    Except Err (Option Key) :=
  if offset > endO then .ok none
  else
    match h1 : takeE 2 bs with
    | none => .ok none
    | some (klenB, bs1) =>
      match h2 : takeE 2 bs1 with
      | none => .error .eofErr
      | some (vlenB, bs2) =>
        match h3 : takeE (beDecode klenB) bs2 with
        | none => .error .eofErr
        | some (keyB, bs3) =>
          if validUtf8 keyB then
            if keyB == key then
              match takeE (beDecode vlenB) bs3 with
              | none => .error .eofErr
              | some (valB, _) =>
                if validUtf8 valB then .ok (some valB) else .error .invalidData
            else
              scanLoop key endO (offset + 2 + 2 + beDecode klenB + beDecode vlenB)
                (bs3.drop (beDecode vlenB))
          else .error .invalidData
termination_by bs.length
decreasing_by
  have e1 := takeE_some h1
  have e2 := takeE_some h2
  have e3 := takeE_some h3
  have := List.length_drop (beDecode vlenB) bs3
  omega

/-- Database::seek_and_read from lib.rs: Exact parses at the offset and panics
if the key read back disagrees; the other ranges scan with the appropriate
bounds (u64::MAX standing in for an absent end). -/
def seekAndRead (bytes : List Nat) (key : Key) (range : ScanRange) :
    Except Err (Option Key) :=
  match range with
  | .Exact offset =>
    match readExactAt bytes offset with
    | .error e => .error e
    | .ok (read_key, read_value) =>
      if read_key == key then .ok (some read_value) else .error .panicked
  | .FromBegin endO => scanLoop key endO 0 bytes
  | .ToEnd start => scanLoop key (2 ^ 64 - 1) start (bytes.drop start)
  | .Range start endO => scanLoop key endO start (bytes.drop start)

/-- The SSTable loop of Database::get: newest table first, compute bounds (the
none case is the sparse-index panic), open the data file by name, and
seek_and_read; the first table that yields a value decides. -/
def getTables (disk : Disk) (key : Key) : List SSTableL → Except Err (Option Key)
  | [] => .ok none
  | t :: rest =>
    match bounds t.index key with
    | none => .error .panicked
    | some range =>
      match fsRead t.data_path disk.files with
      | none => .error .notFound
      | some bytes =>
        match seekAndRead bytes key range with
        | .error e => .error e
        | .ok (some v) => .ok (some v)
        | .ok none => getTables disk key rest

/-- Database::get from lib.rs: the memtable answers first when it holds the
key; otherwise the SSTables are consulted newest to oldest. -/
def Database.get (db : Database) (key : Key) : Except Err (Option Key) :=
  match mtGet key db.memtable with
  | some v => .ok (some v)
  | none => getTables db.disk key db.tables

/-- read_sparse_index from sparse_index.rs: u16 key_len, key, u64 offset
entries until end of file; end of file at an entry boundary terminates the
loop cleanly, end of file mid-entry is an error, and an invalid UTF-8 key
panics (expect). -/
def readSparseIndexGo (bs : List Nat) (acc : SparseIndex) : Except Err SparseIndex :=
  match h1 : takeE 2 bs with
  | none => .ok acc
  | some (klenB, bs1) =>
    match h2 : takeE (beDecode klenB) bs1 with
    | none => .error .eofErr
    | some (keyB, bs2) =>
      match h3 : takeE 8 bs2 with
      | none => .error .eofErr
      | some (offB, bs3) =>
        if validUtf8 keyB then
          readSparseIndexGo bs3 (idxInsert keyB (beDecode offB) acc)
        else .error .panicked
termination_by bs.length
decreasing_by
  have e1 := takeE_some h1
  have e2 := takeE_some h2
  have e3 := takeE_some h3
  omega

def readSparseIndex (bs : List Nat) : Except Err SparseIndex :=
  readSparseIndexGo bs []

/-- The per-entry loading loop of SSTableSet::build from sstable_set.rs: open
each index file named by the manifest (a missing file is NotFound), parse it,
reject an empty index as invalid data, and keep manifest order. -/
def loadTables (disk : Disk) : List (String × String) → Except Err (List SSTableL)
  | [] => .ok []
  | (data_path, index_path) :: rest =>
    match fsRead index_path disk.files with
    | none => .error .notFound
    | some bs =>
      match readSparseIndex bs with
      | .error e => .error e
      | .ok index =>
        if index.length == 0 then .error .invalidData
        else
          match loadTables disk rest with
          | .error e => .error e
          | .ok ts =>
            .ok ({ index := index, index_path := index_path, data_path := data_path } :: ts)

/-- SSTableSet::build from sstable_set.rs: panics when the manifest version
differs from the engine's, then loads the tables. -/
def sstableSetBuild (manifest : Manifest) (disk : Disk) :
    Except Err (Nat × List SSTableL) :=
  if manifest.version ≠ VERSION then .error .panicked
  else
    match loadTables disk manifest.sstables with
    | .error e => .error e
    | .ok tables => .ok (manifest.last_sequence, tables)

/-- Database::build from lib.rs: when the MANIFEST exists it is parsed and the
set loaded from it; when absent, build fails with NotFound if create_if_missing
is false, and otherwise writes a fresh manifest (engine version, empty table
list, last_sequence 0) before loading. Returns the engine (or the error) and
the resulting data directory. -/
def Database.build (config : Config) (disk : Disk) : Except Err Database × Disk :=
  match disk.manifest with
  | some m =>
    match sstableSetBuild m disk with
    | .error e => (.error e, disk)
    | .ok (seq, tables) =>
      (.ok { memtable := [], tables := tables, last_sequence := seq,
             sparse_stride := config.sparse_stride, disk := disk }, disk)
  | none =>
    if !config.create_if_missing then (.error .notFound, disk)
    else
      let m : Manifest := { version := VERSION, last_sequence := 0, sstables := [] }
      let disk1 := { disk with manifest := some m }
      match sstableSetBuild m disk1 with
      | .error e => (.error e, disk1)
      | .ok (seq, tables) =>
        (.ok { memtable := [], tables := tables, last_sequence := seq,
               sparse_stride := config.sparse_stride, disk := disk1 }, disk1)

/-- The end-to-end scenario for the deletion claim: build on an empty data
directory (stride 1, create_if_missing), set key a to value 1, flush without
failure, then delete a. Returns the flush outcome and the resulting engine. -/
def deleteScenario : Option (Except Err Unit × Database) :=
  let config : Config :=
    { sparse_stride := 1, memtable_capacity := 1000, create_if_missing := true }
  let disk : Disk := { manifest := none, files := [] }
  match (Database.build config disk).1 with
  | .error _ => none
  | .ok db =>
    let db1 := db.set [97] [49]
    let p := db1.flush .noFail
    some (p.2, (p.1.delete [97]).1)

/-- C1 (code bug): after set a=1, a successful flush, and delete a, get a
still returns the flushed value 1 instead of absent: Database::delete only
removes the memtable entry (empty after the flush) and records no tombstone,
so Database::get resurfaces the SSTable copy of the key. -/
theorem get_after_delete_of_flushed_key :
    deleteScenario.map (fun p => (p.1, p.2.get [97])) =
      some (.ok (), .ok (some [49])) := rfl

/-- A database holding one memtable entry (a maps to 1), no tables, and a fresh
manifest on disk. -/
def dbOneEntry : Database :=
  { memtable := [([97], [49])], tables := [], last_sequence := 0, sparse_stride := 1,
    disk := { manifest := some { version := VERSION, last_sequence := 0, sstables := [] },
              files := [] } }

/-- C2 counterexample: a flush of a non-empty memtable that fails at the first
record write leaves the memtable empty afterwards, not unchanged: the entries
were drained by mem::take before any record reached the writer and are lost
with it. -/
theorem flush_failure_loses_memtable :
    (dbOneEntry.flush (.writeRecord 0)).1.memtable = [] ∧ dbOneEntry.memtable ≠ [] :=
  ⟨rfl, by decide⟩

theorem flushLoopGo_writeRecord_fails (stride : Nat) (i : Nat) :
    ∀ (entries : List (Key × Key)) (c offset : Nat) (data : List Nat)
      (index : SparseIndex), c ≤ i → i < c + entries.length →
      flushLoopGo stride (.writeRecord i) c offset data index entries = .error .ioErr := by
  intro entries
  induction entries with
  | nil =>
    intro c offset data index h1 h2
    simp at h2
    omega
  | cons e rest ih =>
    intro c offset data index h1 h2
    obtain ⟨key, value⟩ := e
    by_cases hic : i = c
    · subst hic
      simp [flushLoopGo]
    · rw [flushLoopGo]
      have hbe : (FailPoint.writeRecord i == FailPoint.writeRecord c) = false := by
        simp [hic]
      rw [hbe]
      simp only [Bool.false_eq_true, if_false]
      apply ih
      · omega
      · simp at h2
        omega

theorem flushLoopGo_ok (stride : Nat) (fp : FailPoint)
    (hfp : ∀ j, fp ≠ .writeRecord j) :
    ∀ (entries : List (Key × Key)) (c offset : Nat) (data : List Nat)
      (index : SparseIndex), ∃ r,
      flushLoopGo stride fp c offset data index entries = .ok r := by
  intro entries
  induction entries with
  | nil =>
    intro c offset data index
    exact ⟨_, rfl⟩
  | cons e rest ih =>
    intro c offset data index
    obtain ⟨key, value⟩ := e
    rw [flushLoopGo]
    have hbe : (fp == FailPoint.writeRecord c) = false := by
      cases hb : fp == FailPoint.writeRecord c
      · rfl
      · exact absurd (eq_of_beq hb) (hfp c)
    rw [hbe]
    simp only [Bool.false_eq_true, if_false]
    apply ih

theorem flush_noFail_ok (db : Database) : (db.flush .noFail).2 = .ok () := by
  rw [Database.flush]
  obtain ⟨r, hr⟩ := flushLoopGo_ok db.sparse_stride .noFail (by intro j h; cases h)
    db.memtable 0 0 [] []
  simp [hr]

/-- C2 corrected: the precise state after a failed flush. A failure creating
the data file leaves everything unchanged; one creating the index file leaves
the memtable, set and manifest unchanged (an empty orphan data file aside); a
failure while writing any record, flushing the data writer, or writing the
index finds the memtable already drained by mem::take — its entries are lost —
while the SSTable set and the on-disk manifest still reflect the pre-flush
state; a failure creating the MANIFEST file leaves the new table already in
the in-memory set with the old manifest still on disk; one while writing the
manifest leaves the truncated manifest destroyed; and from every one of these
states a subsequent flush without failure succeeds. -/
theorem flush_failure_state (db : Database) (i : Nat) (hi : i < db.memtable.length) :
    db.flush .createData = (db, .error .ioErr) ∧
    ((db.flush .createIndex).1.memtable = db.memtable ∧
      (db.flush .createIndex).1.tables = db.tables ∧
      (db.flush .createIndex).1.last_sequence = db.last_sequence ∧
      (db.flush .createIndex).1.disk.manifest = db.disk.manifest ∧
      (db.flush .createIndex).2 = .error .ioErr) ∧
    ((db.flush (.writeRecord i)).1.memtable = [] ∧
      (db.flush (.writeRecord i)).1.tables = db.tables ∧
      (db.flush (.writeRecord i)).1.last_sequence = db.last_sequence ∧
      (db.flush (.writeRecord i)).1.disk.manifest = db.disk.manifest ∧
      (db.flush (.writeRecord i)).2 = .error .ioErr) ∧
    ((db.flush .flushData).1.memtable = [] ∧
      (db.flush .flushData).1.tables = db.tables ∧
      (db.flush .flushData).1.last_sequence = db.last_sequence ∧
      (db.flush .flushData).1.disk.manifest = db.disk.manifest ∧
      (db.flush .flushData).2 = .error .ioErr) ∧
    ((db.flush .writeIndex).1.memtable = [] ∧
      (db.flush .writeIndex).1.tables = db.tables ∧
      (db.flush .writeIndex).1.last_sequence = db.last_sequence ∧
      (db.flush .writeIndex).1.disk.manifest = db.disk.manifest ∧
      (db.flush .writeIndex).2 = .error .ioErr) ∧
    ((db.flush .manifestCreate).1.memtable = [] ∧
      (db.flush .manifestCreate).1.tables.length = db.tables.length + 1 ∧
      (db.flush .manifestCreate).1.last_sequence = db.last_sequence + 1 ∧
      (db.flush .manifestCreate).1.disk.manifest = db.disk.manifest ∧
      (db.flush .manifestCreate).2 = .error .ioErr) ∧
    ((db.flush .manifestWrite).1.disk.manifest = none ∧
      (db.flush .manifestWrite).2 = .error .ioErr) ∧
    (∀ fp, ((db.flush fp).1.flush .noFail).2 = .ok ()) := by
  have hwr := flushLoopGo_writeRecord_fails db.sparse_stride i db.memtable 0 0 [] []
    (Nat.zero_le i) (by simpa using hi)
  have hfd := flushLoopGo_ok db.sparse_stride .flushData (by intro j h; cases h)
    db.memtable 0 0 [] []
  have hwi := flushLoopGo_ok db.sparse_stride .writeIndex (by intro j h; cases h)
    db.memtable 0 0 [] []
  have hmc := flushLoopGo_ok db.sparse_stride .manifestCreate (by intro j h; cases h)
    db.memtable 0 0 [] []
  have hmw := flushLoopGo_ok db.sparse_stride .manifestWrite (by intro j h; cases h)
    db.memtable 0 0 [] []
  obtain ⟨⟨rd, ri⟩, hfd⟩ := hfd
  obtain ⟨⟨rd2, ri2⟩, hwi⟩ := hwi
  obtain ⟨⟨rd3, ri3⟩, hmc⟩ := hmc
  obtain ⟨⟨rd4, ri4⟩, hmw⟩ := hmw
  refine ⟨?_, ?_, ?_, ?_, ?_, ?_, ?_, ?_⟩
  · rw [Database.flush]
    rfl
  · rw [Database.flush]
    simp
  · rw [Database.flush]
    simp [hwr]
  · rw [Database.flush]
    simp [hfd]
  · rw [Database.flush]
    simp [hwi]
  · rw [Database.flush]
    simp [hmc]
  · rw [Database.flush]
    simp [hmw]
  · intro fp
    exact flush_noFail_ok (db.flush fp).1

theorem flush_failure_state_witness :
    (0 < dbOneEntry.memtable.length) ∧
    ((dbOneEntry.flush (.writeRecord 0)).1.memtable = [] ∧
      (dbOneEntry.flush (.writeRecord 0)).1.tables = dbOneEntry.tables ∧
      (dbOneEntry.flush (.writeRecord 0)).1.last_sequence = dbOneEntry.last_sequence ∧
      (dbOneEntry.flush (.writeRecord 0)).1.disk.manifest = dbOneEntry.disk.manifest ∧
      (dbOneEntry.flush (.writeRecord 0)).2 = .error .ioErr) :=
  ⟨by decide, (flush_failure_state dbOneEntry 0 (by decide)).2.2.1⟩

/-- C5 (code bug): the flush write path does not use the §4.1 record layout.
Flushing the single entry a=1 produces a data file holding the tagless
write_record serialization (u16 key_len, u16 val_len, key bytes, value bytes),
which lacks the one-byte type_tag required by §4.1 and emitted by
Record::write_to of record.rs for the same key and Str value. -/
theorem flush_writes_tagless_records :
    fsRead "00001.db" (dbOneEntry.flush .noFail).1.disk.files =
      some (write_record [97] [49]) ∧
    write_record [97] [49] = [0, 1, 0, 1, 97, 49] ∧
    Record.writeBytes { key := [97], value := .Value (.Str [49]) } =
      [0, 1, 0, 1, 0, 97, 49] ∧
    write_record [97] [49] ≠
      Record.writeBytes { key := [97], value := .Value (.Str [49]) } :=
  ⟨rfl, rfl, rfl, by decide⟩

/-- The manifest Database::build writes on first start: engine version, empty
table list, last_sequence 0. -/
def freshManifest : Manifest :=
  { version := VERSION, last_sequence := 0, sstables := [] }

/-- C9: with no MANIFEST in the data directory, build fails with NotFound and
writes no manifest when create_if_missing is false; when it is true, build
creates and writes a fresh manifest carrying the engine version, an empty
table list and last_sequence 0, and returns an engine with an empty table set
over that manifest. -/
theorem build_create_if_missing (config : Config) (disk : Disk)
    (hnone : disk.manifest = none) :
    (config.create_if_missing = false →
      Database.build config disk = (.error .notFound, disk)) ∧
    (config.create_if_missing = true →
      Database.build config disk =
        (.ok { memtable := [], tables := [], last_sequence := 0,
               sparse_stride := config.sparse_stride,
               disk := { disk with manifest := some freshManifest } },
         { disk with manifest := some freshManifest })) := by
  constructor
  · intro hf
    rw [Database.build, hnone]
    simp [hf]
  · intro ht
    rw [Database.build, hnone]
    simp [ht, sstableSetBuild, loadTables, freshManifest]

theorem build_create_if_missing_witness :
    (Disk.manifest { manifest := none, files := [] } = none) ∧
    (Config.create_if_missing
        { sparse_stride := 1, memtable_capacity := 1, create_if_missing := false } =
          false →
      Database.build
          { sparse_stride := 1, memtable_capacity := 1, create_if_missing := false }
          { manifest := none, files := [] } =
        (.error .notFound, { manifest := none, files := [] })) :=
  ⟨rfl, (build_create_if_missing
    { sparse_stride := 1, memtable_capacity := 1, create_if_missing := false }
    { manifest := none, files := [] } rfl).1⟩

/-- compact.rs HeapEntry: a pending record tagged with the index of its source
table in the input list (smaller priority = newer table). -/
structure HeapEntry where
  key : Key
  priority : Nat
  value : MemValue
deriving DecidableEq

/-- The heap comparison: impl Ord for HeapEntry reverses key and then priority,
so the BinaryHeap maximum is the least (key, priority) pair lexicographically.
heLE a b says a is popped no later than b. -/
def heLE (a b : HeapEntry) : Bool :=
  keyLt a.key b.key || (a.key == b.key && a.priority ≤ b.priority)

/-- The pop order as a relation; the heap is modelled as a list kept sorted by
it, with peek and pop at the head — extensionally the BinaryHeap behaviour. -/
def heR (a b : HeapEntry) : Prop := heLE a b = true

instance : DecidableRel heR := fun a b => inferInstanceAs (Decidable (heLE a b = true))

theorem keyLt_total (a b : Key) : keyLt a b = true ∨ keyLt b a = true ∨ a = b := by
  cases h1 : keyLt a b
  · cases h2 : keyLt b a
    · exact Or.inr (Or.inr (keyLt_connex h1 h2))
    · exact Or.inr (Or.inl rfl)
  · exact Or.inl rfl

instance : IsTotal HeapEntry heR := by
  constructor
  intro a b
  unfold heR heLE
  rcases keyLt_total a.key b.key with h | h | h
  · exact Or.inl (by simp [h])
  · exact Or.inr (by simp [h])
  · rcases Nat.le_total a.priority b.priority with hp | hp
    · exact Or.inl (by simp [h, hp])
    · exact Or.inr (by simp [h, hp])

instance : IsTrans HeapEntry heR := by
  constructor
  intro a b c hab hbc
  unfold heR heLE at hab hbc ⊢
  simp only [Bool.or_eq_true, Bool.and_eq_true, beq_iff_eq, decide_eq_true_eq] at hab hbc ⊢
  rcases hab with hab | ⟨hab, hab2⟩
  · rcases hbc with hbc | ⟨hbc, _⟩
    · exact Or.inl (keyLt_trans hab hbc)
    · exact Or.inl (hbc ▸ hab)
  · rcases hbc with hbc | ⟨hbc, hbc2⟩
    · exact Or.inl (hab ▸ hbc)
    · exact Or.inr ⟨hab.trans hbc, hab2.trans hbc2⟩

/-- BinaryHeap::push. -/
def heapPush (e : HeapEntry) (heap : List HeapEntry) : List HeapEntry :=
  List.orderedInsert heR e heap

/-- The heap entry sourced from reader p, if any. -/
def heapFind (p : Nat) (heap : List HeapEntry) : Option HeapEntry :=
  heap.find? (fun e => e.priority == p)

/-- The record a heap entry carries. -/
def toRec (e : HeapEntry) : Record := ⟨e.key, e.value⟩

/-- Total number of records still unread across the readers. -/
def sumLens (rs : List (List Record)) : Nat := (rs.map List.length).sum

/-- The refill step of compact.rs: Record::read_from on reader p; a successful
read pushes a heap entry carrying p; on end of input nothing is pushed and the
reader stays put. -/
def refill (p : Nat) (heap : List HeapEntry) (readers : List (List Record)) :
    List HeapEntry × List (List Record) :=
  match readers[p]? with
  | some (r :: rs) => (heapPush ⟨r.key, p, r.value⟩ heap, readers.set p rs)
  | _ => (heap, readers)

theorem heapFind_cons (x : HeapEntry) (l : List HeapEntry) (p : Nat) :
    heapFind p (x :: l) = if x.priority == p then some x else heapFind p l := by
  unfold heapFind
  cases hx : x.priority == p <;> simp [List.find?, hx]

theorem heapFind_push_ne (e : HeapEntry) (h : List HeapEntry) (p : Nat)
    (hne : e.priority ≠ p) : heapFind p (heapPush e h) = heapFind p h := by
  induction h with
  | nil =>
    rw [heapPush, List.orderedInsert, heapFind_cons]
    simp [hne, heapFind, List.find?]
  | cons b l ih =>
    rw [heapPush, List.orderedInsert]
    split
    · rw [heapFind_cons]
      simp [hne]
    · rw [heapFind_cons, heapFind_cons]
      cases hb : b.priority == p
      · simp only [Bool.false_eq_true, if_false]
        exact ih
      · simp

theorem heapFind_push_self (e : HeapEntry) (h : List HeapEntry)
    (hall : ∀ x ∈ h, x.priority ≠ e.priority) :
    heapFind e.priority (heapPush e h) = some e := by
  induction h with
  | nil =>
    rw [heapPush, List.orderedInsert, heapFind_cons]
    simp
  | cons b l ih =>
    rw [heapPush, List.orderedInsert]
    split
    · rw [heapFind_cons]
      simp
    · rw [heapFind_cons]
      have hb : (b.priority == e.priority) = false := by
        simp [hall b (List.mem_cons_self _ _)]
      rw [hb]
      simp only [Bool.false_eq_true, if_false]
      exact ih (fun x hx => hall x (List.mem_cons_of_mem b hx))

theorem heapFind_none_iff (p : Nat) (h : List HeapEntry) :
    heapFind p h = none ↔ ∀ x ∈ h, x.priority ≠ p := by
  unfold heapFind
  rw [List.find?_eq_none]
  constructor
  · intro hh x hx
    have := hh x hx
    simpa using this
  · intro hh x hx
    simpa using hh x hx

theorem heapFind_mem {p : Nat} {h : List HeapEntry} {e : HeapEntry}
    (hf : heapFind p h = some e) : e ∈ h ∧ e.priority = p := by
  refine ⟨List.mem_of_find?_eq_some hf, ?_⟩
  have := List.find?_some hf
  simpa using this

theorem sumLens_set {rs : List (List Record)} {p : Nat} {s : List Record}
    (hp : rs[p]? = some s) (s2 : List Record) :
    sumLens (rs.set p s2) + s.length = sumLens rs + s2.length := by
  induction rs generalizing p with
  | nil => simp at hp
  | cons a l ih =>
    cases p with
    | zero =>
      simp at hp
      subst hp
      simp [sumLens, List.set]
      omega
    | succ q =>
      simp at hp
      have := ih hp
      simp [sumLens, List.set] at this ⊢
      omega

/-- Strict key-ascent of a record stream (so no duplicate keys). -/
def Asc (rs : List Record) : Prop :=
  rs.Pairwise (fun a b => keyLt a.key b.key = true)

/-- Removes the head of a stream when it holds the given key. -/
def dropIfHead (k : Key) : List Record → List Record
  | [] => []
  | r :: rs => if r.key == k then rs else r :: rs

/-- The slot a stream holds for a key. -/
def lookupKey (k : Key) : List Record → Option MemValue
  | [] => none
  | r :: rs => if r.key == k then some r.value else lookupKey k rs

/-- Modelled from the spec: the newest version of a key across the input
tables — the slot of the first (newest, smallest index) table containing it. -/
def newest (tables : List (List Record)) (k : Key) : Option MemValue :=
  match tables with
  | [] => none
  | t :: ts =>
    match lookupKey k t with
    | some v => some v
    | none => newest ts k

theorem refill_measure (p : Nat) (heap : List HeapEntry) (readers : List (List Record)) :
    (refill p heap readers).1.length + sumLens (refill p heap readers).2 ≤
      heap.length + sumLens readers ∧
    heap.length ≤ (refill p heap readers).1.length := by
  unfold refill
  split
  next r rs hr =>
    have hs := sumLens_set hr rs
    rw [heapPush, List.orderedInsert_length]
    simp at hs ⊢
    omega
  next => simp

/-- The duplicate-drain loop of compact.rs: while the heap peek shares the key
just popped, pop it too and refill from its source reader. -/
def drainDup (k : Key) (heap : List HeapEntry) (readers : List (List Record)) :
    List HeapEntry × List (List Record) :=
  match heap with
  | [] => ([], readers)
  | e :: rest =>
    if e.key == k then
      drainDup k (refill e.priority rest readers).1 (refill e.priority rest readers).2
    else (e :: rest, readers)
termination_by heap.length + sumLens readers
decreasing_by
  have h := refill_measure e.priority rest readers
  simp only [List.length_cons]
  omega

theorem drainDup_measure (k : Key) :
    ∀ (N : Nat) (heap : List HeapEntry) (readers : List (List Record)),
      heap.length + sumLens readers ≤ N →
      (drainDup k heap readers).1.length + sumLens (drainDup k heap readers).2 ≤
        heap.length + sumLens readers := by
  intro N
  induction N with
  | zero =>
    intro heap readers h
    have hh : heap = [] := by
      cases heap
      · rfl
      · simp at h
    subst hh
    rw [drainDup]
  | succ N ih =>
    intro heap readers h
    match heap with
    | [] => rw [drainDup]
    | e :: rest =>
      rw [drainDup]
      split
      · have hr := refill_measure e.priority rest readers
        have hrec := ih (refill e.priority rest readers).1
          (refill e.priority rest readers).2 (by simp at h; omega)
        simp only [List.length_cons]
        omega
      · simp

/-- The main loop of compact_sstable_set: pop the winner, drain duplicates of
its key, write the record unless it is a tombstone, refill from the winner's
reader, repeat; the result is the stream of records written to the output. -/
def mergeLoop (heap : List HeapEntry) (readers : List (List Record)) : List Record :=
  match heap with
  | [] => []
  | e :: rest =>
    let d := drainDup e.key rest readers
    let out := if e.value = .Tombstone then [] else [toRec e]
    let f := refill e.priority d.1 d.2
    out ++ mergeLoop f.1 f.2
termination_by heap.length + sumLens readers
decreasing_by
  have hd := drainDup_measure e.key (rest.length + sumLens readers) rest readers
    (Nat.le_refl _)
  have hf := refill_measure e.priority (drainDup e.key rest readers).1
    (drainDup e.key rest readers).2
  simp only [List.length_cons]
  omega

/-- The initialization loop of compact_sstable_set: read the first record of
each table, pushing a heap entry with the table's position i as priority on a
successful read; every reader joins the list, positioned past the read. -/
def initGo (i : Nat) : List (List Record) → List HeapEntry × List (List Record)
  | [] => ([], [])
  | t :: ts =>
    let rest := initGo (i + 1) ts
    match t with
    | [] => (rest.1, [] :: rest.2)
    | r :: rs => (heapPush ⟨r.key, i, r.value⟩ rest.1, rs :: rest.2)

/-- compact_sstable_set from compact.rs at the record level: the inputs are the
record streams of the live tables, newest (index 0) first; the result is the
record stream written to the compacted output. -/
def compactRecords (tables : List (List Record)) : List Record :=
  mergeLoop (initGo 0 tables).1 (initGo 0 tables).2

theorem lookupKey_eq_none_of_gt {k : Key} {s : List Record}
    (h : ∀ r ∈ s, keyLt k r.key = true) : lookupKey k s = none := by
  induction s with
  | nil => rfl
  | cons r rs ih =>
    rw [lookupKey]
    have hr := h r (List.mem_cons_self _ _)
    have hne : (r.key == k) = false := by
      cases hk : r.key == k
      · rfl
      · rw [eq_of_beq hk] at hr
        rw [keyLt_irrefl] at hr
        exact Bool.noConfusion hr
    rw [hne]
    simp only [Bool.false_eq_true, if_false]
    exact ih (fun x hx => h x (List.mem_cons_of_mem r hx))

theorem lookupKey_some_mem {k : Key} {s : List Record} {v : MemValue}
    (h : lookupKey k s = some v) : (⟨k, v⟩ : Record) ∈ s := by
  induction s with
  | nil => simp [lookupKey] at h
  | cons r rs ih =>
    rw [lookupKey] at h
    split at h
    · next hk =>
      injection h with h
      have hr : r = ⟨k, v⟩ := by
        obtain ⟨rk, rv⟩ := r
        simp at hk ⊢
        simp at h
        exact ⟨hk, h⟩
      rw [← hr]
      exact List.mem_cons_self _ _
    · exact List.mem_cons_of_mem r (ih h)

theorem lookupKey_dropIfHead_ne {k k2 : Key} (hne : k2 ≠ k) (s : List Record) :
    lookupKey k2 (dropIfHead k s) = lookupKey k2 s := by
  cases s with
  | nil => rfl
  | cons r rs =>
    rw [dropIfHead]
    split
    · next hk =>
      rw [lookupKey]
      have hkk : r.key = k := eq_of_beq hk
      have hf : (r.key == k2) = false := by
        cases hx : r.key == k2
        · rfl
        · have h2 : k = k2 := by
            rw [← hkk]
            exact eq_of_beq hx
          exact absurd h2.symm hne
      rw [hf]
      simp
    · rfl

theorem newest_congr {streams1 streams2 : List (List Record)} {k : Key}
    (hlen : streams1.length = streams2.length)
    (h : ∀ (p : Nat) (s1 s2 : List Record), streams1[p]? = some s1 →
      streams2[p]? = some s2 → lookupKey k s1 = lookupKey k s2) :
    newest streams1 k = newest streams2 k := by
  induction streams1 generalizing streams2 with
  | nil =>
    cases streams2 with
    | nil => rfl
    | cons b l2 => simp at hlen
  | cons a l1 ih =>
    cases streams2 with
    | nil => simp at hlen
    | cons b l2 =>
      rw [newest, newest]
      have h0 := h 0 a b (by simp) (by simp)
      rw [h0]
      have hrec : newest l1 k = newest l2 k := by
        apply ih
        · simpa using hlen
        · intro p s1 s2 h1 h2
          exact h (p + 1) s1 s2 (by simpa using h1) (by simpa using h2)
      rw [hrec]

theorem newest_some_mem {streams : List (List Record)} {k : Key} {v : MemValue}
    (h : newest streams k = some v) : ∃ s ∈ streams, lookupKey k s = some v := by
  induction streams with
  | nil => simp [newest] at h
  | cons t ts ih =>
    rw [newest] at h
    split at h
    · next hv =>
      injection h with h
      exact ⟨t, List.mem_cons_self _ _, by rw [hv, h]⟩
    · obtain ⟨s, hs, hl⟩ := ih h
      exact ⟨s, List.mem_cons_of_mem t hs, hl⟩

theorem newest_eq_of_first {streams : List (List Record)} {k : Key} {v : MemValue}
    {p : Nat} {s : List Record} (hp : streams[p]? = some s)
    (hl : lookupKey k s = some v)
    (hbefore : ∀ q s2, q < p → streams[q]? = some s2 → lookupKey k s2 = none) :
    newest streams k = some v := by
  induction streams generalizing p with
  | nil => simp at hp
  | cons t ts ih =>
    cases p with
    | zero =>
      simp at hp
      subst hp
      rw [newest, hl]
    | succ q =>
      simp at hp
      rw [newest]
      have h0 := hbefore 0 t (Nat.succ_pos q) (by simp)
      rw [h0]
      exact ih hp (fun q2 s2 hq2 hs2 =>
        hbefore (q2 + 1) s2 (by omega) (by simpa using hs2))

theorem heR_key {a b : HeapEntry} (h : heR a b) :
    a.key = b.key ∨ keyLt a.key b.key = true := by
  unfold heR heLE at h
  simp only [Bool.or_eq_true, Bool.and_eq_true, beq_iff_eq, decide_eq_true_eq] at h
  rcases h with h | ⟨h, _⟩
  · exact Or.inr h
  · exact Or.inl h

theorem heR_prio {a b : HeapEntry} (h : heR a b) (hk : a.key = b.key) :
    a.priority ≤ b.priority := by
  unfold heR heLE at h
  simp only [Bool.or_eq_true, Bool.and_eq_true, beq_iff_eq, decide_eq_true_eq] at h
  rcases h with h | ⟨_, h⟩
  · rw [hk, keyLt_irrefl] at h
    exact Bool.noConfusion h
  · exact h

theorem dropIfHead_noop {k : Key} {s : List Record}
    (h : ∀ r ∈ s, keyLt k r.key = true) : dropIfHead k s = s := by
  cases s with
  | nil => rfl
  | cons r rest =>
    rw [dropIfHead]
    have hf : (r.key == k) = false := by
      cases hx : r.key == k
      · rfl
      · have hr := h r (List.mem_cons_self _ _)
        rw [eq_of_beq hx] at hr
        rw [keyLt_irrefl] at hr
        exact Bool.noConfusion hr
    rw [hf]
    simp

theorem dropIfHead_head {k : Key} {head : Record} (rs : List Record)
    (h : head.key = k) : dropIfHead k (head :: rs) = rs := by
  rw [dropIfHead]
  simp [h]

theorem map_dropIfHead_id {k : Key} {streams : List (List Record)}
    (h : ∀ s ∈ streams, dropIfHead k s = s) :
    streams.map (dropIfHead k) = streams := by
  have h2 : streams.map (dropIfHead k) = streams.map id :=
    List.map_congr_left (by intro s hs; rw [h s hs]; rfl)
  rw [h2, List.map_id]

/-- The merge-state invariant: the heap is sorted in pop order with at most one
entry per reader, priorities index the readers, a reader without an entry is
exhausted, an entry is the head of its virtual stream (the entry record
followed by the unread reader suffix), and every virtual stream is strictly
ascending. -/
structure Inv (heap : List HeapEntry) (readers streams : List (List Record)) : Prop where
  len : streams.length = readers.length
  sorted : List.Sorted heR heap
  distinct : heap.Pairwise (fun a b => a.priority ≠ b.priority)
  bound : ∀ e ∈ heap, e.priority < readers.length
  frNone : ∀ p, p < readers.length → heapFind p heap = none →
    readers[p]? = some [] ∧ streams[p]? = some []
  frSome : ∀ (p : Nat) (e : HeapEntry), heapFind p heap = some e →
    ∃ rs, readers[p]? = some rs ∧ streams[p]? = some (toRec e :: rs)
  asc : ∀ s ∈ streams, Asc s

/-- The drain-phase invariant: as Inv, but the popped entry's own reader ph is
excluded — it has no heap entry and its virtual stream is exactly its unread
suffix, whose keys all exceed the drained key k — and every heap key is at
least k. -/
structure DInv (k : Key) (ph : Nat) (heap : List HeapEntry)
    (readers streams : List (List Record)) : Prop where
  len : streams.length = readers.length
  sorted : List.Sorted heR heap
  distinct : heap.Pairwise (fun a b => a.priority ≠ b.priority)
  bound : ∀ e ∈ heap, e.priority < readers.length
  notPh : ∀ e ∈ heap, e.priority ≠ ph
  geK : ∀ e ∈ heap, e.key = k ∨ keyLt k e.key = true
  frNone : ∀ p, p < readers.length → p ≠ ph → heapFind p heap = none →
    readers[p]? = some [] ∧ streams[p]? = some []
  frSome : ∀ (p : Nat) (e : HeapEntry), heapFind p heap = some e →
    ∃ rs, readers[p]? = some rs ∧ streams[p]? = some (toRec e :: rs)
  phStream : streams[ph]? = readers[ph]?
  phGt : ∀ s, readers[ph]? = some s → ∀ r ∈ s, keyLt k r.key = true
  asc : ∀ s ∈ streams, Asc s

theorem dinv_dropIfHead_noop {k : Key} {ph : Nat} {heap : List HeapEntry}
    {readers streams : List (List Record)} (hd : DInv k ph heap readers streams)
    (hk : ∀ e ∈ heap, keyLt k e.key = true) :
    streams.map (dropIfHead k) = streams := by
  apply map_dropIfHead_id
  intro s hs
  obtain ⟨p, hp⟩ := List.getElem?_of_mem hs
  have hplt : p < readers.length := by
    rw [← hd.len]
    exact (List.getElem?_eq_some_iff.mp hp).1
  by_cases hph : p = ph
  · subst hph
    rw [hd.phStream] at hp
    exact dropIfHead_noop (hd.phGt s hp)
  · cases hf : heapFind p heap with
    | none =>
      have hse := (hd.frNone p hplt hph hf).2
      rw [hp] at hse
      injection hse with hse
      rw [hse]
      rfl
    | some e =>
      obtain ⟨rs, hrd, hst⟩ := hd.frSome p e hf
      rw [hp] at hst
      injection hst with hst
      rw [hst]
      apply dropIfHead_noop
      intro r hr
      rcases List.mem_cons.mp hr with rfl | hr
      · exact hk e (heapFind_mem hf).1
      · have hasc := hd.asc (toRec e :: rs) (by rw [hst] at hp; exact List.getElem?_mem hp)
        rw [Asc, List.pairwise_cons] at hasc
        have h2 := hasc.1 r hr
        exact keyLt_trans (hk e (heapFind_mem hf).1) h2

theorem set_map_dropIfHead {k : Key} {streams : List (List Record)} {p : Nat}
    {head : Record} {rs : List Record}
    (hp : streams[p]? = some (head :: rs)) (hhead : head.key = k)
    (hrs : ∀ r ∈ rs, keyLt k r.key = true) :
    (streams.set p rs).map (dropIfHead k) = streams.map (dropIfHead k) := by
  apply List.ext_getElem?
  intro n
  rw [List.getElem?_map, List.getElem?_map]
  by_cases hn : n = p
  · subst hn
    rw [List.getElem?_set_self (List.getElem?_eq_some_iff.mp hp).1, hp]
    simp only [Option.map_some']
    rw [dropIfHead_head rs hhead, dropIfHead_noop hrs]
  · rw [List.getElem?_set_ne (Ne.symm hn)]

theorem record_eta (r : Record) : (⟨r.key, r.value⟩ : Record) = r := rfl

theorem drainDup_spec (k : Key) (ph : Nat) :
    ∀ (N : Nat) (heap : List HeapEntry) (readers streams : List (List Record)),
      heap.length + sumLens readers ≤ N →
      DInv k ph heap readers streams →
      DInv k ph (drainDup k heap readers).1 (drainDup k heap readers).2
        (streams.map (dropIfHead k)) ∧
      (drainDup k heap readers).2[ph]? = readers[ph]? ∧
      (∀ e ∈ (drainDup k heap readers).1, keyLt k e.key = true) ∧
      (drainDup k heap readers).1.length + sumLens (drainDup k heap readers).2 ≤
        heap.length + sumLens readers := by
  intro N
  induction N with
  | zero =>
    intro heap readers streams hm hd
    have hh : heap = [] := by
      cases heap
      · rfl
      · simp at hm
    subst hh
    rw [drainDup]
    have hid : streams.map (dropIfHead k) = streams :=
      dinv_dropIfHead_noop hd (by intro e he; simp at he)
    rw [hid]
    exact ⟨hd, rfl, by intro e he; simp at he, Nat.le_refl _⟩
  | succ N ih =>
    intro heap readers streams hm hd
    match heap with
    | [] =>
      rw [drainDup]
      have hid : streams.map (dropIfHead k) = streams :=
        dinv_dropIfHead_noop hd (by intro e he; simp at he)
      rw [hid]
      exact ⟨hd, rfl, by intro e he; simp at he, Nat.le_refl _⟩
    | f :: rest =>
      rw [drainDup]
      cases hfk : f.key == k with
      | false =>
        simp only [Bool.false_eq_true, if_false]
        have hfgt : keyLt k f.key = true := by
          rcases hd.geK f (List.mem_cons_self _ _) with h | h
          · rw [h] at hfk
            simp at hfk
          · exact h
        have hallgt : ∀ e ∈ f :: rest, keyLt k e.key = true := by
          intro e he
          rcases List.mem_cons.mp he with rfl | he
          · exact hfgt
          · have hs := (List.sorted_cons.mp hd.sorted).1 e he
            rcases heR_key hs with h | h
            · rw [← h]
              exact hfgt
            · exact keyLt_trans hfgt h
        have hid : streams.map (dropIfHead k) = streams := dinv_dropIfHead_noop hd hallgt
        rw [hid]
        refine ⟨hd, ?_, hallgt, ?_⟩
        · trivial
        · omega
      | true =>
        simp only [if_true]
        have hffind : heapFind f.priority (f :: rest) = some f := by
          rw [heapFind_cons]
          simp
        obtain ⟨rs, hrd, hst⟩ := hd.frSome f.priority f hffind
        have hfplt : f.priority < readers.length := hd.bound f (List.mem_cons_self _ _)
        have hfslt : f.priority < streams.length := by
          rw [hd.len]
          exact hfplt
        have hfph : f.priority ≠ ph := hd.notPh f (List.mem_cons_self _ _)
        have hfkey : f.key = k := eq_of_beq hfk
        have hrestNoF : ∀ x ∈ rest, x.priority ≠ f.priority := by
          intro x hx h
          exact ((List.pairwise_cons.mp hd.distinct).1 x hx) h.symm
        have hsortRest : List.Sorted heR rest := (List.sorted_cons.mp hd.sorted).2
        have hascf : Asc (toRec f :: rs) := hd.asc _ (List.getElem?_mem hst)
        have hrsgt : ∀ r ∈ rs, keyLt k r.key = true := by
          rw [Asc, List.pairwise_cons] at hascf
          intro r hr
          have h2 := hascf.1 r hr
          rw [← hfkey]
          exact h2
        have hheadkey : (toRec f).key = k := hfkey
        cases rs with
        | nil =>
          simp only [refill, hrd]
          have hdmid : DInv k ph rest readers (streams.set f.priority []) := by
            refine ⟨(by simp [hd.len]), hsortRest,
              (List.pairwise_cons.mp hd.distinct).2,
              fun e he => hd.bound e (List.mem_cons_of_mem f he),
              fun e he => hd.notPh e (List.mem_cons_of_mem f he),
              fun e he => hd.geK e (List.mem_cons_of_mem f he),
              ?_, ?_, ?_, hd.phGt, ?_⟩
            · intro p hp hne hfind
              by_cases hpf : p = f.priority
              · subst hpf
                refine ⟨hrd, ?_⟩
                rw [List.getElem?_set_self hfslt]
              · have hbe : (f.priority == p) = false := by
                  simp [Ne.symm hpf]
                have hfind2 : heapFind p (f :: rest) = none := by
                  rw [heapFind_cons, hbe]
                  simpa using hfind
                have hold := hd.frNone p hp hne hfind2
                refine ⟨hold.1, ?_⟩
                rw [List.getElem?_set_ne (Ne.symm hpf), hold.2]
            · intro p e2 hfind
              have hpf : p ≠ f.priority := by
                intro h
                subst h
                have hmem := heapFind_mem hfind
                exact hrestNoF e2 hmem.1 hmem.2
              have hbe : (f.priority == p) = false := by
                simp [Ne.symm hpf]
              have hfind2 : heapFind p (f :: rest) = some e2 := by
                rw [heapFind_cons, hbe]
                simpa using hfind
              obtain ⟨rs2, h1, h2⟩ := hd.frSome p e2 hfind2
              exact ⟨rs2, h1, by rw [List.getElem?_set_ne (Ne.symm hpf), h2]⟩
            · rw [List.getElem?_set_ne hfph, hd.phStream]
            · intro s hs
              rcases List.mem_or_eq_of_mem_set hs with hs | rfl
              · exact hd.asc s hs
              · exact List.Pairwise.nil
          have hmid : rest.length + sumLens readers ≤ N := by
            simp only [List.length_cons] at hm
            omega
          have hrec := ih rest readers (streams.set f.priority []) hmid hdmid
          have hconv : (streams.set f.priority []).map (dropIfHead k) =
              streams.map (dropIfHead k) :=
            set_map_dropIfHead hst hheadkey (by intro r hr; simp at hr)
          rw [hconv] at hrec
          refine ⟨hrec.1, hrec.2.1, hrec.2.2.1, ?_⟩
          have := hrec.2.2.2
          simp only [List.length_cons]
          omega
        | cons r rs2 =>
          simp only [refill, hrd]
          have hrkey : keyLt k r.key = true := hrsgt r (List.mem_cons_self _ _)
          have hdmid : DInv k ph (heapPush ⟨r.key, f.priority, r.value⟩ rest)
              (readers.set f.priority rs2) (streams.set f.priority (r :: rs2)) := by
            refine ⟨(by simp [hd.len]), hsortRest.orderedInsert _ _,
              ?_, ?_, ?_, ?_, ?_, ?_, ?_, ?_, ?_⟩
            · exact ((List.perm_orderedInsert heR _ _).pairwise_iff
                (fun h => Ne.symm h)).mpr
                (List.pairwise_cons.mpr ⟨fun x hx h => hrestNoF x hx h.symm,
                  (List.pairwise_cons.mp hd.distinct).2⟩)
            · intro e he
              rcases (List.mem_orderedInsert heR).mp he with rfl | he
              · simpa using hfplt
              · simpa using hd.bound e (List.mem_cons_of_mem f he)
            · intro e he
              rcases (List.mem_orderedInsert heR).mp he with rfl | he
              · exact hfph
              · exact hd.notPh e (List.mem_cons_of_mem f he)
            · intro e he
              rcases (List.mem_orderedInsert heR).mp he with rfl | he
              · exact Or.inr hrkey
              · exact hd.geK e (List.mem_cons_of_mem f he)
            · intro p hp hne hfind
              by_cases hpf : p = f.priority
              · subst hpf
                have hps : heapFind f.priority
                    (heapPush ⟨r.key, f.priority, r.value⟩ rest) =
                      some ⟨r.key, f.priority, r.value⟩ :=
                  heapFind_push_self ⟨r.key, f.priority, r.value⟩ rest hrestNoF
                rw [hps] at hfind
                exact Option.noConfusion hfind
              · rw [heapFind_push_ne ⟨r.key, f.priority, r.value⟩ rest p
                  (Ne.symm hpf)] at hfind
                have hbe : (f.priority == p) = false := by
                  simp [Ne.symm hpf]
                have hfind2 : heapFind p (f :: rest) = none := by
                  rw [heapFind_cons, hbe]
                  simpa using hfind
                have hp2 : p < readers.length := by simpa using hp
                have hold := hd.frNone p hp2 hne hfind2
                refine ⟨?_, ?_⟩
                · rw [List.getElem?_set_ne (Ne.symm hpf), hold.1]
                · rw [List.getElem?_set_ne (Ne.symm hpf), hold.2]
            · intro p e2 hfind
              by_cases hpf : p = f.priority
              · subst hpf
                have hps : heapFind f.priority
                    (heapPush ⟨r.key, f.priority, r.value⟩ rest) =
                      some ⟨r.key, f.priority, r.value⟩ :=
                  heapFind_push_self ⟨r.key, f.priority, r.value⟩ rest hrestNoF
                rw [hps] at hfind
                injection hfind with hfind
                refine ⟨rs2, ?_, ?_⟩
                · rw [List.getElem?_set_self hfplt]
                · rw [List.getElem?_set_self hfslt, ← hfind]
                  rfl
              · rw [heapFind_push_ne ⟨r.key, f.priority, r.value⟩ rest p
                  (Ne.symm hpf)] at hfind
                have hbe : (f.priority == p) = false := by
                  simp [Ne.symm hpf]
                have hfind2 : heapFind p (f :: rest) = some e2 := by
                  rw [heapFind_cons, hbe]
                  simpa using hfind
                obtain ⟨rs3, h1, h2⟩ := hd.frSome p e2 hfind2
                refine ⟨rs3, ?_, ?_⟩
                · rw [List.getElem?_set_ne (Ne.symm hpf), h1]
                · rw [List.getElem?_set_ne (Ne.symm hpf), h2]
            · rw [List.getElem?_set_ne hfph, List.getElem?_set_ne hfph, hd.phStream]
            · intro s hs
              rw [List.getElem?_set_ne hfph] at hs
              exact hd.phGt s hs
            · intro s hs
              rcases List.mem_or_eq_of_mem_set hs with hs | rfl
              · exact hd.asc s hs
              · rw [Asc, List.pairwise_cons] at hascf
                exact hascf.2
          have hslen := sumLens_set hrd rs2
          have hmid : (heapPush ⟨r.key, f.priority, r.value⟩ rest).length +
              sumLens (readers.set f.priority rs2) ≤ N := by
            rw [heapPush, List.orderedInsert_length]
            simp only [List.length_cons, List.length_cons] at hm hslen
            omega
          have hrec := ih (heapPush ⟨r.key, f.priority, r.value⟩ rest)
            (readers.set f.priority rs2) (streams.set f.priority (r :: rs2)) hmid hdmid
          have hconv : (streams.set f.priority (r :: rs2)).map (dropIfHead k) =
              streams.map (dropIfHead k) :=
            set_map_dropIfHead hst hheadkey hrsgt
          rw [hconv] at hrec
          refine ⟨hrec.1, ?_, hrec.2.2.1, ?_⟩
          · rw [hrec.2.1, List.getElem?_set_ne hfph]
          · have hfin := hrec.2.2.2
            simp only [heapPush] at hfin ⊢
            rw [List.orderedInsert_length] at hfin
            simp only [List.length_cons] at hslen ⊢
            omega

theorem mergeStep_spec (e : HeapEntry) (rest : List HeapEntry)
    (readers streams : List (List Record)) (hinv : Inv (e :: rest) readers streams) :
    Inv (refill e.priority (drainDup e.key rest readers).1
        (drainDup e.key rest readers).2).1
      (refill e.priority (drainDup e.key rest readers).1
        (drainDup e.key rest readers).2).2
      (streams.map (dropIfHead e.key)) ∧
    (refill e.priority (drainDup e.key rest readers).1
        (drainDup e.key rest readers).2).1.length +
      sumLens (refill e.priority (drainDup e.key rest readers).1
        (drainDup e.key rest readers).2).2 <
      (e :: rest).length + sumLens readers ∧
    (∀ s ∈ streams.map (dropIfHead e.key), ∀ r ∈ s, keyLt e.key r.key = true) ∧
    newest streams e.key = some e.value ∧
    (∀ k2, k2 ≠ e.key → newest (streams.map (dropIfHead e.key)) k2 =
      newest streams k2) := by
  have hefind : heapFind e.priority (e :: rest) = some e := by
    rw [heapFind_cons]
    simp
  obtain ⟨rs, hrd, hst⟩ := hinv.frSome e.priority e hefind
  have heplt : e.priority < readers.length := hinv.bound e (List.mem_cons_self _ _)
  have heslt : e.priority < streams.length := by
    rw [hinv.len]
    exact heplt
  have hsortRest : List.Sorted heR rest := (List.sorted_cons.mp hinv.sorted).2
  have hrestNoE : ∀ x ∈ rest, x.priority ≠ e.priority := by
    intro x hx h
    exact ((List.pairwise_cons.mp hinv.distinct).1 x hx) h.symm
  have hascE : Asc (toRec e :: rs) := hinv.asc _ (List.getElem?_mem hst)
  have hrsgt : ∀ r ∈ rs, keyLt e.key r.key = true := by
    rw [Asc, List.pairwise_cons] at hascE
    exact hascE.1
  have hdpre : DInv e.key e.priority rest readers (streams.set e.priority rs) := by
    refine ⟨(by simp [hinv.len]), hsortRest,
      (List.pairwise_cons.mp hinv.distinct).2,
      fun x hx => hinv.bound x (List.mem_cons_of_mem e hx),
      hrestNoE, ?_, ?_, ?_, ?_, ?_, ?_⟩
    · intro x hx
      have hs := (List.sorted_cons.mp hinv.sorted).1 x hx
      rcases heR_key hs with h | h
      · exact Or.inl h.symm
      · exact Or.inr h
    · intro p hp hne hfind
      have hbe : (e.priority == p) = false := by
        simp [Ne.symm hne]
      have hfind2 : heapFind p (e :: rest) = none := by
        rw [heapFind_cons, hbe]
        simpa using hfind
      have hold := hinv.frNone p hp hfind2
      exact ⟨hold.1, by rw [List.getElem?_set_ne (Ne.symm hne)]; exact hold.2⟩
    · intro p e2 hfind
      have hne : p ≠ e.priority := by
        intro h
        subst h
        have hmem := heapFind_mem hfind
        exact hrestNoE e2 hmem.1 hmem.2
      have hbe : (e.priority == p) = false := by
        simp [Ne.symm hne]
      have hfind2 : heapFind p (e :: rest) = some e2 := by
        rw [heapFind_cons, hbe]
        simpa using hfind
      obtain ⟨rs2, h1, h2⟩ := hinv.frSome p e2 hfind2
      exact ⟨rs2, h1, by rw [List.getElem?_set_ne (Ne.symm hne)]; exact h2⟩
    · rw [List.getElem?_set_self heslt, hrd]
    · intro s hs
      rw [hrd] at hs
      injection hs with hs
      rw [hs] at hrsgt
      exact hrsgt
    · intro s hs
      rcases List.mem_or_eq_of_mem_set hs with hs | rfl
      · exact hinv.asc s hs
      · rw [Asc, List.pairwise_cons] at hascE
        exact hascE.2
  have hds := drainDup_spec e.key e.priority (rest.length + sumLens readers)
    rest readers (streams.set e.priority rs) (Nat.le_refl _) hdpre
  have hheadkey : (toRec e).key = e.key := rfl
  have hconv : (streams.set e.priority rs).map (dropIfHead e.key) =
      streams.map (dropIfHead e.key) := set_map_dropIfHead hst hheadkey hrsgt
  rw [hconv] at hds
  obtain ⟨hd1, hdph, hdgt, hdm⟩ := hds
  have hdrd : (drainDup e.key rest readers).2[e.priority]? = some rs := by
    rw [hdph, hrd]
  have hmaplen : (streams.map (dropIfHead e.key)).length =
      (drainDup e.key rest readers).2.length := hd1.len
  have heplt2 : e.priority < (drainDup e.key rest readers).2.length :=
    (List.getElem?_eq_some_iff.mp hdrd).1
  cases hrscase : rs with
  | nil =>
    subst hrscase
    have hrefeq : refill e.priority (drainDup e.key rest readers).1
        (drainDup e.key rest readers).2 =
        ((drainDup e.key rest readers).1, (drainDup e.key rest readers).2) := by
      rw [refill, hdrd]
    rw [hrefeq]
    refine ⟨?_, ?_, ?_, ?_, ?_⟩
    · refine ⟨hd1.len, hd1.sorted, hd1.distinct, hd1.bound, ?_, ?_, hd1.asc⟩
      · intro p hp hfind
        by_cases hpe : p = e.priority
        · subst hpe
          refine ⟨hdrd, ?_⟩
          rw [hd1.phStream]
          exact hdrd
        · exact hd1.frNone p hp hpe hfind
      · intro p e2 hfind
        have hpe : p ≠ e.priority := by
          intro h
          subst h
          have hmem := heapFind_mem hfind
          exact hd1.notPh e2 hmem.1 hmem.2
        exact hd1.frSome p e2 hfind
    · simp only [List.length_cons]
      omega
    · intro s hs r hr
      obtain ⟨s0, hs0mem, hs0⟩ := List.mem_map.mp hs
      obtain ⟨p, hp⟩ := List.getElem?_of_mem hs0mem
      have hplt : p < readers.length := by
        have := (List.getElem?_eq_some_iff.mp hp).1
        rw [hinv.len] at this
        exact this
      subst hs0
      cases hfind : heapFind p (e :: rest) with
      | none =>
        have hz := (hinv.frNone p hplt hfind).2
        rw [hp] at hz
        injection hz with hz
        rw [hz] at hr
        simp [dropIfHead] at hr
      | some x =>
        obtain ⟨rs0, h1, h2⟩ := hinv.frSome p x hfind
        rw [hp] at h2
        injection h2 with h2
        have hascx : Asc (toRec x :: rs0) := by
          rw [← h2]
          exact hinv.asc s0 hs0mem
        have hxge := (List.sorted_cons.mp hinv.sorted).1
        have hxkey : x.key = e.key ∨ keyLt e.key x.key = true := by
          rcases List.mem_cons.mp (heapFind_mem hfind).1 with rfl | hx
          · exact Or.inl rfl
          · rcases heR_key (hxge x hx) with h | h
            · exact Or.inl h.symm
            · exact Or.inr h
        rw [h2] at hr
        rcases hxkey with hxkey | hxkey
        · rw [dropIfHead_head rs0 hxkey] at hr
          rw [Asc, List.pairwise_cons] at hascx
          have hlt := hascx.1 r hr
          simp only [toRec] at hlt
          rw [hxkey] at hlt
          exact hlt
        · have hnoop : dropIfHead e.key (toRec x :: rs0) = toRec x :: rs0 := by
            apply dropIfHead_noop
            intro r2 hr2
            rcases List.mem_cons.mp hr2 with rfl | hr2
            · exact hxkey
            · rw [Asc, List.pairwise_cons] at hascx
              exact keyLt_trans hxkey (hascx.1 r2 hr2)
          rw [hnoop] at hr
          rcases List.mem_cons.mp hr with rfl | hr
          · exact hxkey
          · rw [Asc, List.pairwise_cons] at hascx
            exact keyLt_trans hxkey (hascx.1 r hr)
    · apply newest_eq_of_first (p := e.priority) (s := toRec e :: [])
      · exact hst
      · simp [lookupKey, toRec]
      · intro q s2 hq hs2
        cases hfind : heapFind q (e :: rest) with
        | none =>
          have hqlt : q < readers.length := by omega
          have hz := (hinv.frNone q hqlt hfind).2
          rw [hs2] at hz
          injection hz with hz
          rw [hz]
          rfl
        | some x =>
          obtain ⟨rs0, h1, h2⟩ := hinv.frSome q x hfind
          rw [hs2] at h2
          injection h2 with h2
          have hxmem := heapFind_mem hfind
          have hxrest : x ∈ rest := by
            rcases List.mem_cons.mp hxmem.1 with rfl | hx
            · omega
            · exact hx
          have hxkey : keyLt e.key x.key = true := by
            rcases heR_key ((List.sorted_cons.mp hinv.sorted).1 x hxrest) with h | h
            · exfalso
              have hple := heR_prio ((List.sorted_cons.mp hinv.sorted).1 x hxrest) h
              omega
            · exact h
          rw [h2]
          apply lookupKey_eq_none_of_gt
          intro r2 hr2
          rcases List.mem_cons.mp hr2 with rfl | hr2
          · exact hxkey
          · have hascx : Asc (toRec x :: rs0) := by
              rw [← h2]
              exact hinv.asc s2 (List.getElem?_mem hs2)
            rw [Asc, List.pairwise_cons] at hascx
            exact keyLt_trans hxkey (hascx.1 r2 hr2)
    · intro k2 hk2
      apply newest_congr
      · simp
      · intro p s1 s2 h1 h2
        rw [List.getElem?_map, h2] at h1
        injection h1 with h1
        rw [← h1]
        exact lookupKey_dropIfHead_ne hk2 s2
  | cons r rs2 =>
    subst hrscase
    have hrefeq : refill e.priority (drainDup e.key rest readers).1
        (drainDup e.key rest readers).2 =
        (heapPush ⟨r.key, e.priority, r.value⟩ (drainDup e.key rest readers).1,
          (drainDup e.key rest readers).2.set e.priority rs2) := by
      rw [refill, hdrd]
    rw [hrefeq]
    have hnoE : ∀ x ∈ (drainDup e.key rest readers).1, x.priority ≠ e.priority :=
      fun x hx => hd1.notPh x hx
    refine ⟨?_, ?_, ?_, ?_, ?_⟩
    · refine ⟨(by simp [hd1.len]), hd1.sorted.orderedInsert _ _, ?_, ?_, ?_, ?_, ?_⟩
      · exact ((List.perm_orderedInsert heR _ _).pairwise_iff
          (fun h => Ne.symm h)).mpr
          (List.pairwise_cons.mpr ⟨fun x hx h => hnoE x hx h.symm, hd1.distinct⟩)
      · intro x hx
        rcases (List.mem_orderedInsert heR).mp hx with rfl | hx
        · simpa using heplt2
        · simpa using hd1.bound x hx
      · intro p hp hfind
        by_cases hpe : p = e.priority
        · subst hpe
          have hps : heapFind e.priority
              (heapPush ⟨r.key, e.priority, r.value⟩ (drainDup e.key rest readers).1) =
                some ⟨r.key, e.priority, r.value⟩ :=
            heapFind_push_self ⟨r.key, e.priority, r.value⟩ _ hnoE
          rw [hps] at hfind
          exact Option.noConfusion hfind
        · rw [heapFind_push_ne ⟨r.key, e.priority, r.value⟩ _ p (Ne.symm hpe)] at hfind
          have hold := hd1.frNone p (by simpa using hp) hpe hfind
          exact ⟨by rw [List.getElem?_set_ne (Ne.symm hpe)]; exact hold.1, hold.2⟩
      · intro p e2 hfind
        by_cases hpe : p = e.priority
        · subst hpe
          have hps : heapFind e.priority
              (heapPush ⟨r.key, e.priority, r.value⟩ (drainDup e.key rest readers).1) =
                some ⟨r.key, e.priority, r.value⟩ :=
            heapFind_push_self ⟨r.key, e.priority, r.value⟩ _ hnoE
          rw [hps] at hfind
          injection hfind with hfind
          refine ⟨rs2, ?_, ?_⟩
          · rw [List.getElem?_set_self heplt2]
          · rw [hd1.phStream, hdrd, ← hfind]
            rfl
        · rw [heapFind_push_ne ⟨r.key, e.priority, r.value⟩ _ p (Ne.symm hpe)] at hfind
          obtain ⟨rs3, h1, h2⟩ := hd1.frSome p e2 hfind
          exact ⟨rs3, by rw [List.getElem?_set_ne (Ne.symm hpe)]; exact h1, h2⟩
      · intro s hs
        exact hd1.asc s hs
    · have hsl := sumLens_set hdrd rs2
      simp only [heapPush, List.orderedInsert_length, List.length_cons] at hsl ⊢
      omega
    · intro s hs r2 hr2
      obtain ⟨s0, hs0mem, hs0⟩ := List.mem_map.mp hs
      obtain ⟨p, hp⟩ := List.getElem?_of_mem hs0mem
      have hplt : p < readers.length := by
        have := (List.getElem?_eq_some_iff.mp hp).1
        rw [hinv.len] at this
        exact this
      subst hs0
      cases hfind : heapFind p (e :: rest) with
      | none =>
        have hz := (hinv.frNone p hplt hfind).2
        rw [hp] at hz
        injection hz with hz
        rw [hz] at hr2
        simp [dropIfHead] at hr2
      | some x =>
        obtain ⟨rs0, h1, h2⟩ := hinv.frSome p x hfind
        rw [hp] at h2
        injection h2 with h2
        have hascx : Asc (toRec x :: rs0) := by
          rw [← h2]
          exact hinv.asc s0 hs0mem
        have hxkey : x.key = e.key ∨ keyLt e.key x.key = true := by
          rcases List.mem_cons.mp (heapFind_mem hfind).1 with rfl | hx
          · exact Or.inl rfl
          · rcases heR_key ((List.sorted_cons.mp hinv.sorted).1 x hx) with h | h
            · exact Or.inl h.symm
            · exact Or.inr h
        rw [h2] at hr2
        rcases hxkey with hxkey | hxkey
        · rw [dropIfHead_head rs0 hxkey] at hr2
          rw [Asc, List.pairwise_cons] at hascx
          have hlt := hascx.1 r2 hr2
          simp only [toRec] at hlt
          rw [hxkey] at hlt
          exact hlt
        · have hnoop : dropIfHead e.key (toRec x :: rs0) = toRec x :: rs0 := by
            apply dropIfHead_noop
            intro r3 hr3
            rcases List.mem_cons.mp hr3 with rfl | hr3
            · exact hxkey
            · rw [Asc, List.pairwise_cons] at hascx
              exact keyLt_trans hxkey (hascx.1 r3 hr3)
          rw [hnoop] at hr2
          rcases List.mem_cons.mp hr2 with rfl | hr2
          · exact hxkey
          · rw [Asc, List.pairwise_cons] at hascx
            exact keyLt_trans hxkey (hascx.1 r2 hr2)
    · apply newest_eq_of_first (p := e.priority) (s := toRec e :: r :: rs2)
      · exact hst
      · simp [lookupKey, toRec]
      · intro q s2 hq hs2
        cases hfind : heapFind q (e :: rest) with
        | none =>
          have hqlt : q < readers.length := by omega
          have hz := (hinv.frNone q hqlt hfind).2
          rw [hs2] at hz
          injection hz with hz
          rw [hz]
          rfl
        | some x =>
          obtain ⟨rs0, h1, h2⟩ := hinv.frSome q x hfind
          rw [hs2] at h2
          injection h2 with h2
          have hxmem := heapFind_mem hfind
          have hxrest : x ∈ rest := by
            rcases List.mem_cons.mp hxmem.1 with rfl | hx
            · omega
            · exact hx
          have hxkey : keyLt e.key x.key = true := by
            rcases heR_key ((List.sorted_cons.mp hinv.sorted).1 x hxrest) with h | h
            · exfalso
              have hple := heR_prio ((List.sorted_cons.mp hinv.sorted).1 x hxrest) h
              omega
            · exact h
          rw [h2]
          apply lookupKey_eq_none_of_gt
          intro r2 hr2
          rcases List.mem_cons.mp hr2 with rfl | hr2
          · exact hxkey
          · have hascx : Asc (toRec x :: rs0) := by
              rw [← h2]
              exact hinv.asc s2 (List.getElem?_mem hs2)
            rw [Asc, List.pairwise_cons] at hascx
            exact keyLt_trans hxkey (hascx.1 r2 hr2)
    · intro k2 hk2
      apply newest_congr
      · simp
      · intro p s1 s2 h1 h2
        rw [List.getElem?_map, h2] at h1
        injection h1 with h1
        rw [← h1]
        exact lookupKey_dropIfHead_ne hk2 s2

theorem newest_eq_none {streams : List (List Record)} {k : Key}
    (h : ∀ s ∈ streams, lookupKey k s = none) : newest streams k = none := by
  induction streams with
  | nil => rfl
  | cons t ts ih =>
    rw [newest, h t (List.mem_cons_self _ _)]
    exact ih (fun s hs => h s (List.mem_cons_of_mem t hs))

theorem mergeLoop_spec :
    ∀ (N : Nat) (heap : List HeapEntry) (readers streams : List (List Record)),
      heap.length + sumLens readers ≤ N →
      Inv heap readers streams →
      (mergeLoop heap readers).Pairwise (fun a b => keyLt a.key b.key = true) ∧
      (∀ r ∈ mergeLoop heap readers, r.value ≠ MemValue.Tombstone) ∧
      (∀ (k : Key) (v : Value), (⟨k, .Value v⟩ : Record) ∈ mergeLoop heap readers ↔
        newest streams k = some (.Value v)) := by
  intro N
  induction N with
  | zero =>
    intro heap readers streams hm hinv
    have hh : heap = [] := by
      cases heap
      · rfl
      · simp at hm
    subst hh
    rw [mergeLoop]
    refine ⟨List.Pairwise.nil, (by simp), ?_⟩
    intro k v
    have hempty : ∀ s ∈ streams, lookupKey k s = none := by
      intro s hs
      obtain ⟨p, hp⟩ := List.getElem?_of_mem hs
      have hplt : p < readers.length := by
        have h2 := (List.getElem?_eq_some_iff.mp hp).1
        rw [hinv.len] at h2
        exact h2
      have hz := (hinv.frNone p hplt rfl).2
      rw [hp] at hz
      injection hz with hz
      rw [hz]
      rfl
    rw [newest_eq_none hempty]
    simp
  | succ N ih =>
    intro heap readers streams hm hinv
    match heap with
    | [] =>
      rw [mergeLoop]
      refine ⟨List.Pairwise.nil, (by simp), ?_⟩
      intro k v
      have hempty : ∀ s ∈ streams, lookupKey k s = none := by
        intro s hs
        obtain ⟨p, hp⟩ := List.getElem?_of_mem hs
        have hplt : p < readers.length := by
          have h2 := (List.getElem?_eq_some_iff.mp hp).1
          rw [hinv.len] at h2
          exact h2
        have hz := (hinv.frNone p hplt rfl).2
        rw [hp] at hz
        injection hz with hz
        rw [hz]
        rfl
      rw [newest_eq_none hempty]
      simp
    | e :: rest =>
      simp only [mergeLoop]
      obtain ⟨hstep1, hstep2, hstep3, hstep4, hstep5⟩ :=
        mergeStep_spec e rest readers streams hinv
      have hmN : (refill e.priority (drainDup e.key rest readers).1
          (drainDup e.key rest readers).2).1.length +
          sumLens (refill e.priority (drainDup e.key rest readers).1
            (drainDup e.key rest readers).2).2 ≤ N := by
        simp only [List.length_cons] at hstep2 hm
        omega
      obtain ⟨ihp, ihnt, ihiff⟩ := ih _ _ _ hmN hstep1
      have hrecgt : ∀ r ∈ mergeLoop
          (refill e.priority (drainDup e.key rest readers).1
            (drainDup e.key rest readers).2).1
          (refill e.priority (drainDup e.key rest readers).1
            (drainDup e.key rest readers).2).2, keyLt e.key r.key = true := by
        intro r hr
        cases hv : r.value with
        | Tombstone => exact absurd hv (ihnt r hr)
        | Value vr =>
          have hrr : (⟨r.key, .Value vr⟩ : Record) ∈ mergeLoop
              (refill e.priority (drainDup e.key rest readers).1
                (drainDup e.key rest readers).2).1
              (refill e.priority (drainDup e.key rest readers).1
                (drainDup e.key rest readers).2).2 := by
            rw [← hv]
            exact hr
          have hnw := (ihiff r.key vr).mp hrr
          obtain ⟨s, hsmem, hlook⟩ := newest_some_mem hnw
          have hmem := lookupKey_some_mem hlook
          exact hstep3 s hsmem ⟨r.key, .Value vr⟩ hmem
      cases hv : e.value with
      | Tombstone =>
        simp only [if_pos rfl, List.nil_append]
        rw [hv] at hstep4
        refine ⟨ihp, ihnt, ?_⟩
        intro k v
        by_cases hk : k = e.key
        · subst hk
          refine iff_of_false ?_ ?_
          · intro hmem
            have hgt : keyLt e.key e.key = true := hrecgt ⟨e.key, .Value v⟩ hmem
            rw [keyLt_irrefl] at hgt
            exact Bool.noConfusion hgt
          · intro hnw
            rw [hstep4] at hnw
            injection hnw with hnw
            exact MemValue.noConfusion hnw
        · rw [← hstep5 k hk]
          exact ihiff k v
      | Value v0 =>
        rw [hv] at hstep4
        have hne : (MemValue.Value v0 = MemValue.Tombstone) = False := by
          simp
        simp only [hne, if_false, List.singleton_append]
        refine ⟨?_, ?_, ?_⟩
        · rw [List.pairwise_cons]
          exact ⟨fun r hr => hrecgt r hr, ihp⟩
        · intro r hr
          rcases List.mem_cons.mp hr with rfl | hr
          · simp only [toRec, hv]
            intro h
            exact MemValue.noConfusion h
          · exact ihnt r hr
        · intro k v
          constructor
          · intro hmem
            rcases List.mem_cons.mp hmem with heq | hmem
            · simp only [toRec] at heq
              injection heq with h1 h2
              subst h1
              rw [hstep4, ← hv, ← h2]
            · by_cases hk : k = e.key
              · subst hk
                have hgt : keyLt e.key e.key = true := hrecgt ⟨e.key, .Value v⟩ hmem
                rw [keyLt_irrefl] at hgt
                exact Bool.noConfusion hgt
              · rw [← hstep5 k hk]
                exact (ihiff k v).mp hmem
          · intro hnw
            by_cases hk : k = e.key
            · subst hk
              rw [hstep4] at hnw
              injection hnw with hnw
              injection hnw with hnw
              apply List.mem_cons.mpr
              left
              simp only [toRec, hv]
              rw [hnw]
            · apply List.mem_cons.mpr
              right
              apply (ihiff k v).mpr
              rw [hstep5 k hk]
              exact hnw

theorem initGo_spec (ts : List (List Record)) :
    ∀ i : Nat,
      (initGo i ts).2.length = ts.length ∧
      List.Sorted heR (initGo i ts).1 ∧
      (initGo i ts).1.Pairwise (fun a b => a.priority ≠ b.priority) ∧
      (∀ e ∈ (initGo i ts).1, i ≤ e.priority ∧ e.priority < i + ts.length) ∧
      (∀ j, j < ts.length →
        (heapFind (i + j) (initGo i ts).1 = none →
          (initGo i ts).2[j]? = some [] ∧ ts[j]? = some []) ∧
        (∀ e, heapFind (i + j) (initGo i ts).1 = some e →
          ∃ rs, (initGo i ts).2[j]? = some rs ∧ ts[j]? = some (toRec e :: rs))) := by
  induction ts with
  | nil =>
    intro i
    refine ⟨rfl, List.sorted_nil, List.Pairwise.nil, (by intro e he; simp [initGo] at he), ?_⟩
    intro j hj
    simp at hj
  | cons t ts ih =>
    intro i
    obtain ⟨ihlen, ihsort, ihdis, ihbound, ihfr⟩ := ih (i + 1)
    have hge : ∀ e ∈ (initGo (i + 1) ts).1, i + 1 ≤ e.priority := by
      intro e he
      exact (ihbound e he).1
    cases t with
    | nil =>
      have hres : initGo i ([] :: ts) =
          ((initGo (i + 1) ts).1, [] :: (initGo (i + 1) ts).2) := by
        rw [initGo]
      rw [hres]
      refine ⟨(by simp [ihlen]), ihsort, ihdis, ?_, ?_⟩
      · intro e he
        have hb := ihbound e he
        simp only [List.length_cons]
        omega
      · intro j hj
        cases j with
        | zero =>
          have hnone : heapFind (i + 0) (initGo (i + 1) ts).1 = none := by
            rw [heapFind_none_iff]
            intro x hx h
            have := hge x hx
            omega
          refine ⟨fun _ => ⟨(by simp), (by simp)⟩, ?_⟩
          intro e hfind
          rw [hnone] at hfind
          exact Option.noConfusion hfind
        | succ j2 =>
          have harith : i + (j2 + 1) = (i + 1) + j2 := by omega
          have hj2 : j2 < ts.length := by
            simp at hj
            omega
          have hfr := ihfr j2 hj2
          rw [← harith] at hfr
          refine ⟨fun h => ⟨?_, ?_⟩, fun e hfind => ?_⟩
          · simpa using (hfr.1 h).1
          · simpa using (hfr.1 h).2
          · obtain ⟨rs0, h1, h2⟩ := hfr.2 e hfind
            exact ⟨rs0, by simpa using h1, by simpa using h2⟩
    | cons r rs =>
      have hres : initGo i ((r :: rs) :: ts) =
          (heapPush ⟨r.key, i, r.value⟩ (initGo (i + 1) ts).1,
            rs :: (initGo (i + 1) ts).2) := by
        rw [initGo]
      rw [hres]
      have hnoI : ∀ x ∈ (initGo (i + 1) ts).1,
          x.priority ≠ (⟨r.key, i, r.value⟩ : HeapEntry).priority := by
        intro x hx h
        have := hge x hx
        simp at h
        omega
      refine ⟨(by simp [ihlen]), ihsort.orderedInsert _ _, ?_, ?_, ?_⟩
      · exact ((List.perm_orderedInsert heR _ _).pairwise_iff
          (fun h => Ne.symm h)).mpr
          (List.pairwise_cons.mpr ⟨fun x hx h => hnoI x hx h.symm, ihdis⟩)
      · intro e he
        rcases (List.mem_orderedInsert heR).mp he with rfl | he
        · simp
        · have hb := ihbound e he
          simp only [List.length_cons]
          omega
      · intro j hj
        cases j with
        | zero =>
          have hfindI : heapFind (i + 0) (heapPush ⟨r.key, i, r.value⟩
              (initGo (i + 1) ts).1) = some ⟨r.key, i, r.value⟩ := by
            have hps := heapFind_push_self ⟨r.key, i, r.value⟩ _ hnoI
            simpa using hps
          refine ⟨?_, ?_⟩
          · intro h
            rw [hfindI] at h
            exact Option.noConfusion h
          · intro e hfind
            rw [hfindI] at hfind
            injection hfind with hfind
            refine ⟨rs, (by simp), ?_⟩
            rw [← hfind]
            simp [toRec, record_eta]
        | succ j2 =>
          have harith : i + (j2 + 1) = (i + 1) + j2 := by omega
          have hj2 : j2 < ts.length := by
            simp at hj
            omega
          have hne : (⟨r.key, i, r.value⟩ : HeapEntry).priority ≠ i + (j2 + 1) := by
            simp
          have hpne := heapFind_push_ne ⟨r.key, i, r.value⟩ (initGo (i + 1) ts).1
            (i + (j2 + 1)) hne
          rw [hpne]
          have hfr := ihfr j2 hj2
          rw [← harith] at hfr
          refine ⟨fun h => ⟨?_, ?_⟩, fun e hfind => ?_⟩
          · simpa using (hfr.1 h).1
          · simpa using (hfr.1 h).2
          · obtain ⟨rs0, h1, h2⟩ := hfr.2 e hfind
            exact ⟨rs0, by simpa using h1, by simpa using h2⟩

theorem initInv (tables : List (List Record)) (hasc : ∀ t ∈ tables, Asc t) :
    Inv (initGo 0 tables).1 (initGo 0 tables).2 tables := by
  obtain ⟨hlen, hsort, hdis, hbound, hfr⟩ := initGo_spec tables 0
  refine ⟨hlen.symm, hsort, hdis, ?_, ?_, ?_, hasc⟩
  · intro e he
    have hb := (hbound e he).2
    rw [hlen]
    simpa using hb
  · intro p hp hfind
    have hp2 : p < tables.length := by
      rw [← hlen]
      exact hp
    have h0 := (hfr p hp2).1
    rw [Nat.zero_add] at h0
    exact h0 hfind
  · intro p e hfind
    have hp2 : p < tables.length := by
      have hmem := heapFind_mem hfind
      have hb := (hbound e hmem.1).2
      rw [← hmem.2]
      simpa using hb
    have h0 := (hfr p hp2).2
    rw [Nat.zero_add] at h0
    exact h0 e hfind

/-- C3: the k-way merge of compact_sstable_set, run on any table list whose
record streams are each strictly key-ascending (no duplicate keys), emits an
output stream that is strictly key-ascending with no duplicate keys, contains
no tombstone records, and contains exactly those keys whose newest version
across the inputs (smaller table index = newer) is a real value, each paired
with that newest value. -/
theorem compact_correct (tables : List (List Record))
    (hasc : ∀ t ∈ tables, Asc t) :
    (compactRecords tables).Pairwise (fun a b => keyLt a.key b.key = true) ∧
    (∀ r ∈ compactRecords tables, r.value ≠ MemValue.Tombstone) ∧
    (∀ (k : Key) (v : Value), (⟨k, .Value v⟩ : Record) ∈ compactRecords tables ↔
      newest tables k = some (.Value v)) := by
  have hinv := initInv tables hasc
  exact mergeLoop_spec ((initGo 0 tables).1.length + sumLens (initGo 0 tables).2)
    (initGo 0 tables).1 (initGo 0 tables).2 tables (Nat.le_refl _) hinv

/-- Concrete input for the compaction witness: the newest table holds a
tombstone for key b, the older one holds values for keys a and b. -/
def wTables : List (List Record) :=
  [[⟨[98], .Tombstone⟩],
   [⟨[97], .Value (.Str [120])⟩, ⟨[98], .Value (.Str [121])⟩]]

theorem compact_correct_witness :
    (∀ t ∈ wTables, Asc t) ∧
    ((compactRecords wTables).Pairwise (fun a b => keyLt a.key b.key = true) ∧
     (∀ r ∈ compactRecords wTables, r.value ≠ MemValue.Tombstone) ∧
     (∀ (k : Key) (v : Value), (⟨k, .Value v⟩ : Record) ∈ compactRecords wTables ↔
       newest wTables k = some (.Value v))) := by
  have hasc : ∀ t ∈ wTables, Asc t := by
    simp only [Asc]
    decide
  exact ⟨hasc, compact_correct wTables hasc⟩

theorem readFrom_length {bs : List Nat} {r : Record} {rest : List Nat}
    (h : Record.readFrom bs = .ok (r, rest)) : rest.length < bs.length := by
  rw [Record.readFrom] at h
  cases h1 : takeE 2 bs with
  | none => simp only [h1] at h; exact Except.noConfusion h
  | some p1 =>
    obtain ⟨klenB, bs1⟩ := p1
    simp only [h1] at h
    cases h2 : takeE 2 bs1 with
    | none => simp only [h2] at h; exact Except.noConfusion h
    | some p2 =>
      obtain ⟨vlenB, bs2⟩ := p2
      simp only [h2] at h
      cases h3 : takeE 1 bs2 with
      | none => simp only [h3] at h; exact Except.noConfusion h
      | some p3 =>
        obtain ⟨tagB, bs3⟩ := p3
        simp only [h3] at h
        cases h4 : takeE (beDecode klenB) bs3 with
        | none => simp only [h4] at h; exact Except.noConfusion h
        | some p4 =>
          obtain ⟨keyB, bs4⟩ := p4
          simp only [h4] at h
          cases hval : validUtf8 keyB with
          | false => simp [hval] at h
          | true =>
            simp only [hval, if_true] at h
            cases h5 : takeE (beDecode vlenB) bs4 with
            | none => simp only [h5] at h; exact Except.noConfusion h
            | some p5 =>
              obtain ⟨valB, bs5⟩ := p5
              simp only [h5] at h
              cases h6 : MemValue.deserialize tagB.headI valB with
              | error e => simp only [h6] at h; exact Except.noConfusion h
              | ok v =>
                simp only [h6, Except.ok.injEq, Prod.mk.injEq] at h
                obtain ⟨hr, hrest⟩ := h
                subst hrest
                have e1 := takeE_some h1
                have e2 := takeE_some h2
                have e3 := takeE_some h3
                have e4 := takeE_some h4
                have e5 := takeE_some h5
                omega

/-- The record stream recovered from the bytes of a data file: the longest
prefix Record::read_from parses; the first failure of any kind ends the
stream. -/
def parseRecords (bs : List Nat) : List Record :=
  match h : Record.readFrom bs with
  | .ok (r, rest) => r :: parseRecords rest
  | .error _ => []
termination_by bs.length
decreasing_by
  exact readFrom_length h

theorem parseRecords_ok {bs : List Nat} {r : Record} {rest : List Nat}
    (h : Record.readFrom bs = .ok (r, rest)) :
    parseRecords bs = r :: parseRecords rest := by
  rw [parseRecords]
  split
  next r2 rest2 heq =>
    rw [h] at heq
    injection heq with heq
    injection heq with hr hrest
    rw [hr, hrest]
  next e heq =>
    rw [h] at heq
    exact Except.noConfusion heq

theorem parseRecords_err {bs : List Nat} {e : Err}
    (h : Record.readFrom bs = .error e) : parseRecords bs = [] := by
  rw [parseRecords]
  split
  next r2 rest2 heq =>
    rw [h] at heq
    exact Except.noConfusion heq
  next e2 heq => rfl

/-- Total bytes still unread across the byte-level readers. -/
def sumLensB (rs : List (List Nat)) : Nat := (rs.map List.length).sum

/-- The refill step of compact.rs at the byte level: Record::read_from on
reader p; if let Ok pushes an entry, any Err is swallowed and the reader
contributes nothing further. -/
def refillB (p : Nat) (heap : List HeapEntry) (readers : List (List Nat)) :
    List HeapEntry × List (List Nat) :=
  match readers[p]? with
  | some bs =>
    match Record.readFrom bs with
    | .ok (r, rest) => (heapPush ⟨r.key, p, r.value⟩ heap, readers.set p rest)
    | .error _ => (heap, readers)
  | none => (heap, readers)

theorem sumLensB_set {rs : List (List Nat)} {p : Nat} {s : List Nat}
    (hp : rs[p]? = some s) (s2 : List Nat) :
    sumLensB (rs.set p s2) + s.length = sumLensB rs + s2.length := by
  induction rs generalizing p with
  | nil => simp at hp
  | cons a l ih =>
    cases p with
    | zero =>
      simp at hp
      subst hp
      simp [sumLensB, List.set]
      omega
    | succ q =>
      simp at hp
      have := ih hp
      simp [sumLensB, List.set] at this ⊢
      omega

theorem refillB_measure (p : Nat) (heap : List HeapEntry) (readers : List (List Nat)) :
    (refillB p heap readers).1.length + sumLensB (refillB p heap readers).2 ≤
      heap.length + sumLensB readers ∧
    heap.length ≤ (refillB p heap readers).1.length := by
  unfold refillB
  cases hr : readers[p]? with
  | none => simp
  | some bs =>
    cases hpb : Record.readFrom bs with
    | error e => simp [hpb]
    | ok pr =>
      obtain ⟨r, rest⟩ := pr
      have hlen := readFrom_length hpb
      have hs := sumLensB_set hr rest
      simp only [hpb, heapPush, List.orderedInsert_length]
      simp at hs ⊢
      omega

/-- The duplicate-drain loop at the byte level. -/
def drainDupB (k : Key) (heap : List HeapEntry) (readers : List (List Nat)) :
    List HeapEntry × List (List Nat) :=
  match heap with
  | [] => ([], readers)
  | e :: rest =>
    if e.key == k then
      drainDupB k (refillB e.priority rest readers).1 (refillB e.priority rest readers).2
    else (e :: rest, readers)
termination_by heap.length + sumLensB readers
decreasing_by
  have h := refillB_measure e.priority rest readers
  simp only [List.length_cons]
  omega

theorem drainDupB_measure (k : Key) :
    ∀ (N : Nat) (heap : List HeapEntry) (readers : List (List Nat)),
      heap.length + sumLensB readers ≤ N →
      (drainDupB k heap readers).1.length + sumLensB (drainDupB k heap readers).2 ≤
        heap.length + sumLensB readers := by
  intro N
  induction N with
  | zero =>
    intro heap readers h
    have hh : heap = [] := by
      cases heap
      · rfl
      · simp at h
    subst hh
    rw [drainDupB]
  | succ N ih =>
    intro heap readers h
    match heap with
    | [] => rw [drainDupB]
    | e :: rest =>
      rw [drainDupB]
      split
      · have hr := refillB_measure e.priority rest readers
        have hrec := ih (refillB e.priority rest readers).1
          (refillB e.priority rest readers).2 (by simp at h; omega)
        simp only [List.length_cons]
        omega
      · simp

/-- The main loop at the byte level. -/
def mergeLoopB (heap : List HeapEntry) (readers : List (List Nat)) : List Record :=
  match heap with
  | [] => []
  | e :: rest =>
    let d := drainDupB e.key rest readers
    let out := if e.value = .Tombstone then [] else [toRec e]
    let f := refillB e.priority d.1 d.2
    out ++ mergeLoopB f.1 f.2
termination_by heap.length + sumLensB readers
decreasing_by
  have hd := drainDupB_measure e.key (rest.length + sumLensB readers) rest readers
    (Nat.le_refl _)
  have hf := refillB_measure e.priority (drainDupB e.key rest readers).1
    (drainDupB e.key rest readers).2
  simp only [List.length_cons]
  omega

/-- The initialization loop at the byte level: the first read of each table
pushes an entry when it parses; a reader whose first read fails still joins
the list but contributes nothing. -/
def initGoB (i : Nat) : List (List Nat) → List HeapEntry × List (List Nat)
  | [] => ([], [])
  | t :: ts =>
    let rest := initGoB (i + 1) ts
    match Record.readFrom t with
    | .ok (r, rs) => (heapPush ⟨r.key, i, r.value⟩ rest.1, rs :: rest.2)
    | .error _ => (rest.1, t :: rest.2)

/-- compact_sstable_set from compact.rs at the byte level: inputs are the raw
bytes of the live data files, newest first; every Record::read_from failure is
swallowed by the if-let-Ok pattern. -/
def compactBytes (tables : List (List Nat)) : List Record :=
  mergeLoopB (initGoB 0 tables).1 (initGoB 0 tables).2

theorem refillB_sim (p : Nat) (heap : List HeapEntry) (readers : List (List Nat)) :
    (refillB p heap readers).1 = (refill p heap (readers.map parseRecords)).1 ∧
    (refillB p heap readers).2.map parseRecords =
      (refill p heap (readers.map parseRecords)).2 := by
  unfold refillB refill
  cases hr : readers[p]? with
  | none =>
    have hm : (readers.map parseRecords)[p]? = none := by
      simp [List.getElem?_map, hr]
    simp [hr, hm]
  | some bs =>
    have hm : (readers.map parseRecords)[p]? = some (parseRecords bs) := by
      simp [List.getElem?_map, hr]
    cases hpb : Record.readFrom bs with
    | error e =>
      have hpe : parseRecords bs = [] := parseRecords_err hpb
      simp [hr, hpb, hm, hpe]
    | ok pr =>
      obtain ⟨r, rest⟩ := pr
      have hpo : parseRecords bs = r :: parseRecords rest := parseRecords_ok hpb
      simp only [hr, hpb, hm, hpo]
      refine ⟨trivial, ?_⟩
      exact List.map_set

theorem drainDupB_sim (k : Key) :
    ∀ (N : Nat) (heap : List HeapEntry) (readers : List (List Nat)),
      heap.length + sumLensB readers ≤ N →
      (drainDupB k heap readers).1 =
        (drainDup k heap (readers.map parseRecords)).1 ∧
      (drainDupB k heap readers).2.map parseRecords =
        (drainDup k heap (readers.map parseRecords)).2 := by
  intro N
  induction N with
  | zero =>
    intro heap readers h
    have hh : heap = [] := by
      cases heap
      · rfl
      · simp at h
    subst hh
    rw [drainDupB, drainDup]
    exact ⟨rfl, rfl⟩
  | succ N ih =>
    intro heap readers h
    match heap with
    | [] =>
      rw [drainDupB, drainDup]
      exact ⟨rfl, rfl⟩
    | e :: rest =>
      rw [drainDupB, drainDup]
      cases hek : e.key == k with
      | false => simp [hek]
      | true =>
        simp only [hek, if_true]
        obtain ⟨hs1, hs2⟩ := refillB_sim e.priority rest readers
        have hmeas := refillB_measure e.priority rest readers
        have hrec := ih (refillB e.priority rest readers).1
          (refillB e.priority rest readers).2 (by simp at h; omega)
        obtain ⟨hr1, hr2⟩ := hrec
        rw [hr1, hr2, hs1, hs2]
        exact ⟨rfl, rfl⟩

theorem mergeLoopB_sim :
    ∀ (N : Nat) (heap : List HeapEntry) (readers : List (List Nat)),
      heap.length + sumLensB readers ≤ N →
      mergeLoopB heap readers = mergeLoop heap (readers.map parseRecords) := by
  intro N
  induction N with
  | zero =>
    intro heap readers h
    have hh : heap = [] := by
      cases heap
      · rfl
      · simp at h
    subst hh
    rw [mergeLoopB, mergeLoop]
  | succ N ih =>
    intro heap readers h
    match heap with
    | [] => rw [mergeLoopB, mergeLoop]
    | e :: rest =>
      rw [mergeLoopB, mergeLoop]
      obtain ⟨hd1, hd2⟩ := drainDupB_sim e.key (rest.length + sumLensB readers)
        rest readers (Nat.le_refl _)
      have hdm := drainDupB_measure e.key (rest.length + sumLensB readers)
        rest readers (Nat.le_refl _)
      obtain ⟨hf1, hf2⟩ := refillB_sim e.priority (drainDupB e.key rest readers).1
        (drainDupB e.key rest readers).2
      have hfm := refillB_measure e.priority (drainDupB e.key rest readers).1
        (drainDupB e.key rest readers).2
      have hrec := ih (refillB e.priority (drainDupB e.key rest readers).1
          (drainDupB e.key rest readers).2).1
        (refillB e.priority (drainDupB e.key rest readers).1
          (drainDupB e.key rest readers).2).2
        (by simp at h; omega)
      rw [hrec, hf1, hf2, hd1, hd2]

theorem initGoB_sim (ts : List (List Nat)) :
    ∀ i, (initGoB i ts).1 = (initGo i (ts.map parseRecords)).1 ∧
      (initGoB i ts).2.map parseRecords = (initGo i (ts.map parseRecords)).2 := by
  induction ts with
  | nil => intro i; exact ⟨rfl, rfl⟩
  | cons t ts ih =>
    intro i
    obtain ⟨h1, h2⟩ := ih (i + 1)
    simp only [initGoB, initGo, List.map_cons]
    cases hpt : Record.readFrom t with
    | error e =>
      have hpe : parseRecords t = [] := parseRecords_err hpt
      simp only [hpt, hpe, h1, h2, List.map_cons, hpe]
      exact ⟨trivial, trivial⟩
    | ok pr =>
      obtain ⟨r, rs⟩ := pr
      have hpo : parseRecords t = r :: parseRecords rs := parseRecords_ok hpt
      simp only [hpt, hpo, h1, h2, List.map_cons]
      exact ⟨trivial, trivial⟩

theorem compactBytes_eq_parse (tables : List (List Nat)) :
    compactBytes tables = compactRecords (tables.map parseRecords) := by
  unfold compactBytes compactRecords
  obtain ⟨h1, h2⟩ := initGoB_sim tables 0
  rw [mergeLoopB_sim ((initGoB 0 tables).1.length + sumLensB (initGoB 0 tables).2)
    (initGoB 0 tables).1 (initGoB 0 tables).2 (Nat.le_refl _), h2, h1]

/-- C8: refuted as stated. A record parse error raised while reading an input
table during compaction is NOT surfaced: here the newest (and only) input
table is a valid record followed by garbage whose type tag 7 makes
Record::read_from fail with CorruptRecord (here .invalidData), yet
compact_sstable_set succeeds, returning just the records that parsed before
the corruption, because every read in compact.rs is wrapped in
`if let Ok(record)` and a failed read is treated as end of that input. -/
theorem compact_corrupt_not_surfaced :
    Record.readFrom [0, 1, 0, 0, 7, 97] = .error .invalidData ∧
    compactBytes [Record.writeBytes ⟨[97], .Value (.Str [49])⟩ ++ [0, 1, 0, 0, 7, 97]] =
      [⟨[97], .Value (.Str [49])⟩] := by
  constructor
  · rfl
  · rw [compactBytes_eq_parse]
    have hbad : Record.readFrom [0, 1, 0, 0, 7, 97] = .error .invalidData := rfl
    have hgood := readFrom_writeBytes ⟨[97], .Value (.Str [49])⟩ [0, 1, 0, 0, 7, 97]
      (by decide) (by decide)
      (by intro u hu; injection hu with hu; subst hu; exact ⟨by decide, by decide⟩)
    rw [List.map_cons, List.map_nil, parseRecords_ok hgood, parseRecords_err hbad]
    unfold compactRecords
    rw [show initGo 0 [[(⟨[97], .Value (.Str [49])⟩ : Record)]] =
      ([⟨[97], 0, .Value (.Str [49])⟩], [[]]) from rfl]
    rw [mergeLoop]
    rw [show drainDup [97] [] [[]] = ([], [[]]) from by rw [drainDup]]
    have hrf : refill 0 ([] : List HeapEntry) ([[]] : List (List Record)) = ([], [[]]) := rfl
    rw [hrf]
    rw [mergeLoop]
    rfl

/-- C8 (amended): compaction never surfaces a record parse error. Every
Record::read_from in compact_sstable_set (initialization, duplicate drain,
refill) is wrapped in `if let Ok(record)`, so the first failed read of an
input table — truncation, invalid UTF-8, unknown type tag — is silently
treated as end of that input: byte-level compaction always succeeds and its
output equals record-level compaction of each table's longest parseable
record prefix. -/
theorem compact_swallows_parse_errors (tables : List (List Nat)) :
    compactBytes tables = compactRecords (tables.map parseRecords) :=
  compactBytes_eq_parse tables
